import Mathlib

/-!
Verification of `5th_edition_spellbook_app_utils/data_parser.py`.

The Python module operates on a JSON document loaded by `json.loads`.  We
embed the document as a Lean inductive `JVal` (strings, integers, booleans,
arrays, objects), with the top level of the document a `List JVal` (the
script indexes `data[2]`, iterates it, and mutates it in place).

Python strings are modelled as `List Char` (`PyStr`).  `str.lower` is
modelled as ASCII lowercasing (`lowerChar`), `str.strip` as removing
leading/trailing whitespace characters, `str.split(',')` as `splitComma`,
and `', '.join` as `joinCS`.

Fallible Python operations (indexing, subscripting, `set.remove`,
attribute access on a non-dict, iteration of a non-iterable) are modelled
in the `Except PyError` monad with one constructor per Python exception
class that the script can hit.  `print` diagnostics are observational only
and are not modelled.
-/

/-- A Python string, as a list of characters. -/
abbrev PyStr := List Char

/-- ASCII lowercasing of one character; models CPython `str.lower` on the
ASCII range, which is the range exercised by the script's data. -/
def lowerChar (c : Char) : Char :=
  match c with
  | 'A' => 'a' | 'B' => 'b' | 'C' => 'c' | 'D' => 'd' | 'E' => 'e'
  | 'F' => 'f' | 'G' => 'g' | 'H' => 'h' | 'I' => 'i' | 'J' => 'j'
  | 'K' => 'k' | 'L' => 'l' | 'M' => 'm' | 'N' => 'n' | 'O' => 'o'
  | 'P' => 'p' | 'Q' => 'q' | 'R' => 'r' | 'S' => 's' | 'T' => 't'
  | 'U' => 'u' | 'V' => 'v' | 'W' => 'w' | 'X' => 'x' | 'Y' => 'y'
  | 'Z' => 'z'
  | c => c

/-- Python `s.lower()`. -/
def lowerStr (s : PyStr) : PyStr := s.map lowerChar

/-- Remove trailing whitespace: the second half of Python `str.strip`. -/
def stripBack : PyStr → PyStr
  | [] => []
  | c :: rest =>
    match stripBack rest with
    | [] => if c.isWhitespace then [] else [c]
    | r => c :: r

/-- Python `s.strip()`: drop leading then trailing whitespace. -/
def pyStrip (s : PyStr) : PyStr := stripBack (s.dropWhile Char.isWhitespace)

/-- Python `s.split(',')`.  Never returns `[]`; `"".split(',') == ['']`. -/
def splitComma : PyStr → List PyStr
  | [] => [[]]
  | c :: rest =>
    if c = ',' then [] :: splitComma rest
    else
      match splitComma rest with
      | [] => [[c]]
      | p :: ps => (c :: p) :: ps

/-- Python `', '.join(classes)`, as in the script's `_to_str`. -/
def joinCS : List PyStr → PyStr
  | [] => []
  | [x] => x
  | x :: y :: rest => x ++ ',' :: ' ' :: joinCS (y :: rest)

/-- Python `c.startswith(vc)`: `pyStartsWith s pre` is true when `pre` is a
prefix of `s`. -/
def pyStartsWith : PyStr → PyStr → Bool
  | _, [] => true
  | [], _ :: _ => false
  | c :: cs, p :: ps => c == p && pyStartsWith cs ps

/-- Python substring test `needle in hay` for strings. -/
def pyInStr (needle : PyStr) : PyStr → Bool
  | [] => needle.isEmpty
  | c :: rest => pyStartsWith (c :: rest) needle || pyInStr needle rest

/-- Python `lst.index(x)` restricted to the successful case: the index of
the first occurrence of `x` in `lst` (returns `lst.length` when absent;
every use below is guarded by membership). -/
def pyIndex (l : List PyStr) (x : PyStr) : Nat :=
  match l with
  | [] => 0
  | a :: rest => if a = x then 0 else pyIndex rest x + 1

/-- JSON values as produced by `json.loads` (the script's data never uses
`null` or floats). -/
inductive JVal where
  | str (s : PyStr)
  | int (n : Int)
  | bool (b : Bool)
  | arr (xs : List JVal)
  | obj (kvs : List (String × JVal))

mutual
/-- Structural equality on values, modelling Python `==` on JSON data. -/
def JVal.beq : JVal → JVal → Bool
  | .str a, .str b => a == b
  | .int a, .int b => a == b
  | .bool a, .bool b => a == b
  | .arr xs, .arr ys => JVal.beqList xs ys
  | .obj a, .obj b => JVal.beqObj a b
  | _, _ => false

def JVal.beqList : List JVal → List JVal → Bool
  | [], [] => true
  | x :: xs, y :: ys => JVal.beq x y && JVal.beqList xs ys
  | _, _ => false

def JVal.beqObj : List (String × JVal) → List (String × JVal) → Bool
  | [], [] => true
  | (k1, v1) :: xs, (k2, v2) :: ys => k1 == k2 && JVal.beq v1 v2 && JVal.beqObj xs ys
  | _, _ => false
end

/-- Python truthiness of a JSON value (`if classes:`). -/
def JVal.truthy : JVal → Bool
  | .str s => !s.isEmpty
  | .int n => n != 0
  | .bool b => b
  | .arr xs => !xs.isEmpty
  | .obj kvs => !kvs.isEmpty

/-- Is the value a mapping (Python `dict`)? -/
def JVal.isObj : JVal → Bool
  | .obj _ => true
  | _ => false

/-- The Python exceptions the script can raise, one constructor each.
`invalidData` is the script's own `InvalidDataError`; `missingField k item`
stands for `InvalidDataError('{k} missing from {item}')` (the record is
carried structurally instead of via Python `repr`). -/
inductive PyError where
  | invalidData (msg : String)
  | missingField (key : String) (item : JVal)
  | keyError
  | indexError
  | typeError
  | attributeError

/-- Dictionary lookup `kvs[k]` as an `Option` (first matching key; CPython
dicts have unique keys). -/
def getVal : List (String × JVal) → String → Option JVal
  | [], _ => none
  | (k', v) :: rest, k => if k' = k then some v else getVal rest k

/-- Dictionary assignment `d[k] = v`: replace in place if the key exists
(keeping its position), otherwise append. -/
def setKey (kvs : List (String × JVal)) (k : String) (v : JVal) : List (String × JVal) :=
  if (getVal kvs k).isSome then
    kvs.map (fun p => if p.1 = k then (k, v) else p)
  else kvs ++ [(k, v)]

/-- Python `k in v` for a string `k`: key test on dicts, membership on
lists, substring test on strings, `TypeError` otherwise. -/
def pyHasKey (k : String) : JVal → Except PyError Bool
  | .obj kvs => .ok (getVal kvs k).isSome
  | .arr xs => .ok (xs.any (fun v => JVal.beq v (.str k.toList)))
  | .str s => .ok (pyInStr k.toList s)
  | .int _ => .error .typeError
  | .bool _ => .error .typeError

/-- Python `v[k]` for a string key `k`: `KeyError` when a dict lacks the
key, `TypeError` on any non-dict. -/
def pySubscript (v : JVal) (k : String) : Except PyError JVal :=
  match v with
  | .obj kvs =>
    match getVal kvs k with
    | some x => .ok x
    | none => .error .keyError
  | _ => .error .typeError

/-- Python `for item in v`: lists yield elements, dicts yield their keys
(as strings), strings yield one-character strings, `TypeError` otherwise. -/
def pyIterate : JVal → Except PyError (List JVal)
  | .arr xs => .ok xs
  | .obj kvs => .ok (kvs.map (fun p => .str p.1.toList))
  | .str s => .ok (s.map (fun c => .str [c]))
  | .int _ => .error .typeError
  | .bool _ => .error .typeError

/-- `List.mapM` over `Except`, written with explicit matches so proofs can
proceed by structural induction.  Models a Python loop that transforms each
element in order and aborts at the first exception. -/
def mapExcept (f : JVal → Except PyError JVal) : List JVal → Except PyError (List JVal)
  | [] => .ok []
  | x :: xs =>
    match f x with
    | .error e => .error e
    | .ok y =>
      match mapExcept f xs with
      | .error e => .error e
      | .ok ys => .ok (y :: ys)

/-- `_default_data` from the source, in source order. -/
def _default_data : List (String × JVal) :=
  [("id", .int (-1)),
   ("name", .str "aoeu".toList),
   ("school", .str "Abjuration Cantrip".toList),
   ("level", .int (-1)),
   ("casting_time", .str "1 Action".toList),
   ("range", .str "None".toList),
   ("components", .str []),
   ("duration", .str "1 Round".toList),
   ("description", .str "<p>aeu<br></p>".toList),
   ("description_high", .str []),
   ("book", .str []),
   ("note", .str []),
   ("classes", .str []),
   ("concentration", .str "false".toList),
   ("ritual", .str "false".toList),
   ("sound", .str []),
   ("is_edit", .bool false)]

/-- `_default_data.keys()`, in insertion order. -/
def defaultKeys : List String := _default_data.map Prod.fst

/-- The inner loop of `validate_data`: `for key in keys: if key not in
item: raise InvalidDataError(...)`. -/
def checkItemKeys (item : JVal) : List String → Except PyError Unit
  | [] => .ok ()
  | k :: rest =>
    match pyHasKey k item with
    | .error e => .error e
    | .ok false => .error (.missingField k item)
    | .ok true => checkItemKeys item rest

/-- The outer loop of `validate_data` over the record collection. -/
def checkItems : List JVal → Except PyError Unit
  | [] => .ok ()
  | item :: rest =>
    match checkItemKeys item defaultKeys with
    | .error e => .error e
    | .ok () => checkItems rest

/-- `validate_data(data)` from the source. -/
def validate_data (data : List JVal) : Except PyError Unit :=
  if data.length < 3 then
    .error (.invalidData "Expected data to contain at least three entries")
  else
    match data[2]? with
    | none => .error .indexError
    | some d2 =>
      match pyHasKey "data" d2 with
      | .error e => .error e
      | .ok false =>
        .error (.invalidData "Expected dictionary with \"data\" key at index 2 in input data")
      | .ok true =>
        match pySubscript d2 "data" with
        | .error e => .error e
        | .ok internal =>
          match pyIterate internal with
          | .error e => .error e
          | .ok items => checkItems items

/-- `dict(_default_data, **item)`: the default pairs in order, with the
record's value winning on key collision, followed by the record's
non-canonical pairs in record order. -/
def pyDictMerge (defaults item : List (String × JVal)) : List (String × JVal) :=
  defaults.map (fun p =>
    (p.1, match getVal item p.1 with
          | some v => v
          | none => p.2))
  ++ item.filter (fun p => !(getVal defaults p.1).isSome)

/-- One step of `patch_missing_fields`: `dict(_default_data, **item)`
raises `TypeError` when `item` is not a mapping. -/
def patchRecord (item : JVal) : Except PyError JVal :=
  match item with
  | .obj kvs => .ok (.obj (pyDictMerge _default_data kvs))
  | _ => .error .typeError

/-- `patch_missing_fields(data)` from the source.  The in-place updates of
`data[2]['data']` are modelled by rebuilding the document.  When
`data[2]['data']` is a non-empty dict or string, Python iterates its keys
or characters and `dict(**item)` raises `TypeError` on the first one; an
empty dict or string iterates zero times and leaves the document as is. -/
def patch_missing_fields (data : List JVal) : Except PyError (List JVal) :=
  match data[2]? with
  | none => .error .indexError
  | some (JVal.obj kvs) =>
    match getVal kvs "data" with
    | none => .error .keyError
    | some (.arr items) =>
      match mapExcept patchRecord items with
      | .error e => .error e
      | .ok newItems => .ok (data.set 2 (.obj (setKey kvs "data" (.arr newItems))))
    | some (.obj kvs2) => if kvs2.isEmpty then .ok data else .error .typeError
    | some (.str s) => if s.isEmpty then .ok data else .error .typeError
    | some _ => .error .typeError
  | some _ => .error .typeError

/-- `_lowercase_list(_to_list(classes))`: split on commas, strip each
part, lowercase each part. -/
def classListOf (s : PyStr) : List PyStr :=
  ((splitComma s).map pyStrip).map lowerStr

/-- `unique_classes - set(valid_classes_lowercase)` relative to the list
model of the set (` - ` keeps exactly the members not in the subtrahend). -/
def invalidOf (valid_lc : List PyStr) (u : List PyStr) : List PyStr :=
  u.filter (fun c => decide (c ∉ valid_lc))

/-- `unique_classes.remove(c)`: raises `KeyError` when absent. -/
def pySetRemove (st : List PyStr) (x : PyStr) : Except PyError (List PyStr) :=
  if x ∈ st then .ok (st.erase x) else .error .keyError

/-- `unique_classes.add(vc)`: no-op when present. -/
def pySetAdd (st : List PyStr) (x : PyStr) : List PyStr :=
  if x ∈ st then st else st ++ [x]

/-- The inner correction loop for one invalid entry `c`:
`for vc in valid_classes_lowercase: if c.startswith(vc): remove c; add vc`
(note: the source has no `break`, so a second matching `vc` re-runs the
body). -/
def correctInner (c : PyStr) (st : List PyStr) : List PyStr → Except PyError (List PyStr)
  | [] => .ok st
  | vc :: rest =>
    if pyStartsWith c vc then
      match pySetRemove st c with
      | .error e => .error e
      | .ok st1 => correctInner c (pySetAdd st1 vc) rest
    else correctInner c st rest

/-- The outer correction loop `for c in invalid_classes`. -/
def correctAll (valid_lc : List PyStr) (st : List PyStr) : List PyStr → Except PyError (List PyStr)
  | [] => .ok st
  | c :: rest =>
    match correctInner c st valid_lc with
    | .error e => .error e
    | .ok st1 => correctAll valid_lc st1 rest

/-- Insertion of one element for the stable sort model. -/
def insertLe (le : PyStr → PyStr → Bool) (x : PyStr) : List PyStr → List PyStr
  | [] => [x]
  | y :: ys => if le x y then x :: y :: ys else y :: insertLe le x ys

/-- Python `sorted(xs, key=...)`, modelled as insertion sort.  Every call
below sorts by `valid_classes_lowercase.index`, which is injective on the
sorted elements, so any correct sort (stable or not) produces the same
list as CPython's. -/
def sortLe (le : PyStr → PyStr → Bool) : List PyStr → List PyStr
  | [] => []
  | x :: xs => insertLe le x (sortLe le xs)

/-- The recomputation `invalid_classes = unique_classes -
set(valid_classes_lowercase)` followed by the removal `unique_classes =
unique_classes - invalid_classes` (guarded by `if invalid_classes:`). -/
def dropInvalid (valid_lc : List PyStr) (u : List PyStr) : List PyStr :=
  if (invalidOf valid_lc u).isEmpty then u
  else u.filter (fun c => decide (c ∉ invalidOf valid_lc u))

/-- `sorted(unique_classes, key=lambda k: valid_classes_lowercase.index(k))`. -/
def sortByValid (valid_lc : List PyStr) (u : List PyStr) : List PyStr :=
  sortLe (fun a b => decide (pyIndex valid_lc a ≤ pyIndex valid_lc b)) u

/-- `[valid_classes[valid_classes_lowercase.index(n)] for n in classes]`.
`getD .. []` stands for the list indexing `valid_classes[..]`, whose index
is in range at every guarded use. -/
def recase (valid_classes valid_lc : List PyStr) (ns : List PyStr) : List PyStr :=
  ns.map (fun n => valid_classes.getD (pyIndex valid_lc n) [])

/-- The tail of `clean_classes` after the optional correction pass:
removal of invalid entries, sort, recase.  When no correction pass ran,
recomputing `invalid` inside `dropInvalid` equals the value the source
computed before the (skipped) correction block, so this shared tail is
faithful to both paths. -/
def finalize (valid_classes valid_lc : List PyStr) (u : List PyStr) : PyStr :=
  joinCS (recase valid_classes valid_lc (sortByValid valid_lc (dropInvalid valid_lc u)))

/-- The per-record pipeline of `clean_classes` on a non-empty `classes`
string: dedup (Python `set`, modelled as a duplicate-free list whose every
observable below depends only on membership), optional partial-name
correction, removal of invalid entries, sort, recase, join. -/
def normalizeClasses (valid_classes : List PyStr) (cpn : Bool) (s : PyStr) :
    Except PyError PyStr :=
  let valid_lc := valid_classes.map lowerStr
  let u0 := (classListOf s).dedup
  let invalid0 := invalidOf valid_lc u0
  if cpn && !invalid0.isEmpty then
    match correctAll valid_lc u0 invalid0 with
    | .error e => .error e
    | .ok u1 => .ok (finalize valid_classes valid_lc u1)
  else .ok (finalize valid_classes valid_lc u0)

/-- The body of the `for item in internal_data` loop of `clean_classes`:
`item.get('classes')` (`AttributeError` on a non-dict), the `if classes:`
truthiness guard, `classes.split(',')` (`AttributeError` on a truthy
non-string), and the final `item['classes'] = ...` store. -/
def cleanItem (valid_classes : List PyStr) (cpn : Bool) (item : JVal) : Except PyError JVal :=
  match item with
  | .obj kvs =>
    match getVal kvs "classes" with
    | some (.str s) =>
      if s.isEmpty then .ok (.obj kvs)
      else
        match normalizeClasses valid_classes cpn s with
        | .error e => .error e
        | .ok cs => .ok (.obj (setKey kvs "classes" (.str cs)))
    | some v => if v.truthy then .error .attributeError else .ok (.obj kvs)
    | none => .ok (.obj kvs)
  | _ => .error .attributeError

/-- `clean_classes(data, valid_classes, correct_partial_names)` from the
source.  Shape handling mirrors `patch_missing_fields`; iterating a
non-empty dict or string makes `item.get` raise `AttributeError` on the
first key/character. -/
def clean_classes (data : List JVal) (valid_classes : List PyStr) (cpn : Bool) :
    Except PyError (List JVal) :=
  match data[2]? with
  | none => .error .indexError
  | some (JVal.obj kvs) =>
    match getVal kvs "data" with
    | none => .error .keyError
    | some (.arr items) =>
      match mapExcept (cleanItem valid_classes cpn) items with
      | .error e => .error e
      | .ok newItems => .ok (data.set 2 (.obj (setKey kvs "data" (.arr newItems))))
    | some (.obj kvs2) => if kvs2.isEmpty then .ok data else .error .attributeError
    | some (.str s) => if s.isEmpty then .ok data else .error .attributeError
    | some _ => .error .typeError
  | some _ => .error .typeError

/-- The `--process_type validate` branch of the CLI `__main__` block: run
`validate_data` and pass the document through to the (optional) output
unchanged. -/
def run_validate (data : List JVal) : Except PyError (List JVal) :=
  match validate_data data with
  | .error e => .error e
  | .ok () => .ok data

/-- The record collection `data[2]['data']` of a document, when the
document has the shape all three operations expect (a mapping at index 2
whose `"data"` key holds a list). -/
def docItems (data : List JVal) : Option (List JVal) :=
  match data[2]? with
  | some (JVal.obj kvs) =>
    match getVal kvs "data" with
    | some (.arr items) => some items
    | _ => none
  | _ => none

/-- The `classes` value of record `i` of a document. -/
def recordClasses (data : List JVal) (i : Nat) : Option JVal :=
  match docItems data with
  | some items =>
    match items[i]? with
    | some (JVal.obj kvs) => getVal kvs "classes"
    | _ => none
  | none => none

/-- Key-presence test on a record, the Boolean the Validator's `key not in
item` computes when `item` is a mapping. -/
def hasKeyB (item : JVal) (k : String) : Bool :=
  match item with
  | .obj kvs => (getVal kvs k).isSome
  | _ => false

/-- The list of class names is ordered by the position of each name's
lowercased form in `valid_classes_lowercase`, strictly ascending — the
output order of the Normalizer. -/
def OrderedByValid (valid_lc : List PyStr) (xs : List PyStr) : Prop :=
  List.Pairwise (fun a b => pyIndex valid_lc (lowerStr a) < pyIndex valid_lc (lowerStr b)) xs

/-! ### Character-level lemmas -/

theorem lowerChar_comma {c : Char} (h : lowerChar c = ',') : c = ',' := by
  unfold lowerChar at h
  split at h <;> first
  | exact h
  | exact absurd h (by decide)

theorem lowerChar_whitespace (c : Char) : (lowerChar c).isWhitespace = c.isWhitespace := by
  unfold lowerChar
  split <;> rfl

/-! ### `stripBack` and `pyStrip` lemmas -/

theorem stripBack_cons (c : Char) (rest : PyStr) :
    stripBack (c :: rest) =
      match stripBack rest with
      | [] => if c.isWhitespace then [] else [c]
      | r => c :: r := rfl

theorem stripBack_getLast?_not_ws :
    ∀ {s : PyStr} {ch : Char}, (stripBack s).getLast? = some ch → ch.isWhitespace = false := by
  intro s
  induction s with
  | nil => intro ch h; simp [stripBack] at h
  | cons c rest ih =>
    intro ch h
    rw [stripBack_cons] at h
    cases hr : stripBack rest with
    | nil =>
      rw [hr] at h
      by_cases hw : c.isWhitespace
      · rw [if_pos hw] at h; simp at h
      · rw [if_neg hw] at h
        simp only [List.getLast?_singleton, Option.some.injEq] at h
        subst h
        simp at hw
        exact hw
    | cons a l =>
      rw [hr] at h
      simp only [List.getLast?_cons_cons] at h
      exact ih (hr ▸ h)

theorem stripBack_eq_self :
    ∀ {s : PyStr}, (∀ ch, s.getLast? = some ch → ch.isWhitespace = false) → stripBack s = s := by
  intro s
  induction s with
  | nil => intro _; rfl
  | cons c rest ih =>
    intro h
    rw [stripBack_cons]
    cases rest with
    | nil =>
      have hc : c.isWhitespace = false := h c rfl
      simp [stripBack, hc]
    | cons a l =>
      have hr : stripBack (a :: l) = a :: l := by
        refine ih ?_
        intro ch hch
        exact h ch (by rw [List.getLast?_cons_cons]; exact hch)
      rw [hr]

theorem stripBack_head? :
    ∀ {s : PyStr} {ch : Char}, (stripBack s).head? = some ch → s.head? = some ch := by
  intro s
  cases s with
  | nil => intro ch h; simp [stripBack] at h
  | cons c rest =>
    intro ch h
    rw [stripBack_cons] at h
    cases hr : stripBack rest with
    | nil =>
      rw [hr] at h
      by_cases hw : c.isWhitespace
      · rw [if_pos hw] at h; simp at h
      · rw [if_neg hw] at h
        simp only [List.head?_cons, Option.some.injEq] at h
        simp [h]
    | cons a l =>
      rw [hr] at h
      simp only [List.head?_cons, Option.some.injEq] at h
      simp [h]

theorem mem_of_mem_stripBack :
    ∀ {s : PyStr} {ch : Char}, ch ∈ stripBack s → ch ∈ s := by
  intro s
  induction s with
  | nil => intro ch h; simp [stripBack] at h
  | cons c rest ih =>
    intro ch h
    rw [stripBack_cons] at h
    cases hr : stripBack rest with
    | nil =>
      rw [hr] at h
      by_cases hw : c.isWhitespace
      · rw [if_pos hw] at h; simp at h
      · rw [if_neg hw] at h
        simp only [List.mem_singleton] at h
        simp [h]
    | cons a l =>
      rw [hr] at h
      rcases List.mem_cons.mp h with h | h
      · simp [h]
      · exact List.mem_cons_of_mem _ (ih (hr ▸ h))

theorem dropWhile_head?_not {p : Char → Bool} :
    ∀ {s : PyStr} {ch : Char}, (s.dropWhile p).head? = some ch → p ch = false := by
  intro s
  induction s with
  | nil => intro ch h; simp [List.dropWhile] at h
  | cons c rest ih =>
    intro ch h
    by_cases hc : p c
    · rw [List.dropWhile_cons_of_pos hc] at h
      exact ih h
    · rw [List.dropWhile_cons_of_neg hc] at h
      simp only [List.head?_cons, Option.some.injEq] at h
      subst h
      simpa using hc

theorem dropWhile_eq_self_of_head? {p : Char → Bool} {s : PyStr}
    (h : ∀ ch, s.head? = some ch → p ch = false) : s.dropWhile p = s := by
  cases s with
  | nil => rfl
  | cons c rest => exact List.dropWhile_cons_of_neg (by simp [h c rfl])

theorem pyStrip_head?_not_ws {s : PyStr} {ch : Char} (h : (pyStrip s).head? = some ch) :
    ch.isWhitespace = false :=
  dropWhile_head?_not (stripBack_head? h)

theorem pyStrip_getLast?_not_ws {s : PyStr} {ch : Char} (h : (pyStrip s).getLast? = some ch) :
    ch.isWhitespace = false :=
  stripBack_getLast?_not_ws h

theorem pyStrip_eq_self {s : PyStr}
    (h1 : ∀ ch, s.head? = some ch → ch.isWhitespace = false)
    (h2 : ∀ ch, s.getLast? = some ch → ch.isWhitespace = false) : pyStrip s = s := by
  unfold pyStrip
  rw [dropWhile_eq_self_of_head? h1]
  exact stripBack_eq_self h2

theorem pyStrip_idem (s : PyStr) : pyStrip (pyStrip s) = pyStrip s :=
  pyStrip_eq_self (fun _ h => pyStrip_head?_not_ws h) (fun _ h => pyStrip_getLast?_not_ws h)

theorem pyStrip_space_cons (s : PyStr) : pyStrip (' ' :: s) = pyStrip s := by
  unfold pyStrip
  rw [List.dropWhile_cons_of_pos (by decide)]

theorem mem_of_mem_pyStrip {s : PyStr} {ch : Char} (h : ch ∈ pyStrip s) : ch ∈ s :=
  List.dropWhile_sublist _ |>.subset (mem_of_mem_stripBack h)

theorem stripBack_lowerStr : ∀ (s : PyStr), stripBack (lowerStr s) = lowerStr (stripBack s) := by
  intro s
  induction s with
  | nil => rfl
  | cons c rest ih =>
    show stripBack (lowerChar c :: lowerStr rest) = lowerStr (stripBack (c :: rest))
    rw [stripBack_cons, stripBack_cons, ih]
    cases hr : stripBack rest with
    | nil =>
      show (match lowerStr [] with
        | [] => if (lowerChar c).isWhitespace then [] else [lowerChar c]
        | r => lowerChar c :: r) = _
      simp only [lowerStr, List.map_nil, lowerChar_whitespace]
      by_cases hw : c.isWhitespace <;> simp [hw, lowerStr]
    | cons a l =>
      show (match lowerStr (a :: l) with
        | [] => if (lowerChar c).isWhitespace then [] else [lowerChar c]
        | r => lowerChar c :: r) = _
      simp [lowerStr]

theorem pyStrip_lowerStr (s : PyStr) : pyStrip (lowerStr s) = lowerStr (pyStrip s) := by
  unfold pyStrip
  have hdw : (lowerStr s).dropWhile Char.isWhitespace
      = lowerStr (s.dropWhile Char.isWhitespace) := by
    unfold lowerStr
    rw [List.dropWhile_map]
    have hfun : (Char.isWhitespace ∘ lowerChar) = Char.isWhitespace :=
      funext lowerChar_whitespace
    rw [hfun]
  rw [hdw, stripBack_lowerStr]

theorem pyStrip_lower_strip (p : PyStr) :
    pyStrip (lowerStr (pyStrip p)) = lowerStr (pyStrip p) := by
  rw [pyStrip_lowerStr, pyStrip_idem]

/-! ### Length-based fixed-point lemmas -/

theorem dropWhile_eq_self_of_length {p : Char → Bool} :
    ∀ {s : PyStr}, (s.dropWhile p).length = s.length → s.dropWhile p = s := by
  intro s
  induction s with
  | nil => intro _; rfl
  | cons c rest ih =>
    intro h
    by_cases hc : p c
    · rw [List.dropWhile_cons_of_pos hc] at h
      have hle : (rest.dropWhile p).length ≤ rest.length :=
        (List.dropWhile_sublist p).length_le
      simp only [List.length_cons] at h
      omega
    · rw [List.dropWhile_cons_of_neg hc]

theorem stripBack_length_le : ∀ (s : PyStr), (stripBack s).length ≤ s.length := by
  intro s
  induction s with
  | nil => simp [stripBack]
  | cons c rest ih =>
    rw [stripBack_cons]
    cases hr : stripBack rest with
    | nil =>
      by_cases hw : c.isWhitespace
      · simp [hw]
      · simp [hw]
    | cons a l =>
      rw [hr] at ih
      simpa using Nat.succ_le_succ ih

theorem stripBack_sublist : ∀ (s : PyStr), (stripBack s).Sublist s := by
  intro s
  induction s with
  | nil => simp [stripBack]
  | cons c rest ih =>
    rw [stripBack_cons]
    cases hr : stripBack rest with
    | nil =>
      by_cases hw : c.isWhitespace
      · simp [hw]
      · simp only [hw, ite_false]
        exact (List.nil_sublist rest).cons₂ c
    | cons a l =>
      rw [hr] at ih
      exact ih.cons₂ c

theorem stripBack_eq_self_of_length {s : PyStr} (h : (stripBack s).length = s.length) :
    stripBack s = s :=
  (stripBack_sublist s).eq_of_length h

theorem pyStrip_length_le (s : PyStr) : (pyStrip s).length ≤ s.length :=
  Nat.le_trans (stripBack_length_le _) (List.dropWhile_sublist _).length_le

theorem pyStrip_eq_self_of_length {s : PyStr} (h : (pyStrip s).length = s.length) :
    pyStrip s = s := by
  unfold pyStrip at h ⊢
  have h1 := stripBack_length_le (s.dropWhile Char.isWhitespace)
  have h2 : (s.dropWhile Char.isWhitespace).length ≤ s.length :=
    (List.dropWhile_sublist Char.isWhitespace).length_le
  have hdw : (s.dropWhile Char.isWhitespace).length = s.length := by omega
  rw [dropWhile_eq_self_of_length hdw] at h ⊢
  exact stripBack_eq_self_of_length h

theorem pyStrip_of_lower_stripped {r : PyStr} (hn : pyStrip (lowerStr r) = lowerStr r) :
    pyStrip r = r := by
  have hlen : (pyStrip r).length = r.length := by
    have h1 : (lowerStr (pyStrip r)).length = (pyStrip (lowerStr r)).length := by
      rw [pyStrip_lowerStr]
    have h2 : (lowerStr (pyStrip r)).length = (pyStrip r).length := List.length_map _ _
    have h3 : (lowerStr r).length = r.length := List.length_map _ _
    rw [hn] at h1
    omega
  exact pyStrip_eq_self_of_length hlen

/-! ### Comma transport under lowercasing -/

theorem comma_not_mem_lowerStr {s : PyStr} (h : ',' ∉ s) : ',' ∉ lowerStr s := by
  intro hm
  rcases List.mem_map.mp hm with ⟨c, hc, he⟩
  exact h (lowerChar_comma he ▸ hc)

theorem comma_not_mem_of_lower {r : PyStr} (h : ',' ∉ lowerStr r) : ',' ∉ r := by
  intro hm
  exact h (List.mem_map.mpr ⟨',', hm, rfl⟩)

/-! ### `splitComma` and `joinCS` lemmas -/

theorem splitComma_ne_nil : ∀ (s : PyStr), splitComma s ≠ [] := by
  intro s
  cases s with
  | nil => simp [splitComma]
  | cons c rest =>
    by_cases hc : c = ','
    · subst hc; simp [splitComma]
    · simp only [splitComma, if_neg hc]
      cases splitComma rest <;> simp

theorem splitComma_cons_ne {c : Char} (hc : ¬c = ',') {rest : PyStr} {p : PyStr}
    {ps : List PyStr} (hr : splitComma rest = p :: ps) :
    splitComma (c :: rest) = (c :: p) :: ps := by
  simp only [splitComma, if_neg hc, hr]

theorem noComma_mem_splitComma :
    ∀ {s : PyStr} {p : PyStr}, p ∈ splitComma s → ',' ∉ p := by
  intro s
  induction s with
  | nil =>
    intro p hp
    simp only [splitComma, List.mem_singleton] at hp
    simp [hp]
  | cons c rest ih =>
    intro p hp
    by_cases hc : c = ','
    · subst hc
      have heq : splitComma (',' :: rest) = [] :: splitComma rest := by
        simp [splitComma]
      rw [heq] at hp
      rcases List.mem_cons.mp hp with hp | hp
      · simp [hp]
      · exact ih hp
    · cases hr : splitComma rest with
      | nil => exact absurd hr (splitComma_ne_nil rest)
      | cons q qs =>
        rw [splitComma_cons_ne hc hr] at hp
        rcases List.mem_cons.mp hp with hp | hp
        · subst hp
          intro hm
          rcases List.mem_cons.mp hm with hm | hm
          · exact hc hm.symm
          · exact ih (hr ▸ List.mem_cons_self q qs) hm
        · exact ih (hr ▸ List.mem_cons_of_mem q hp)

theorem splitComma_of_noComma : ∀ {x : PyStr}, ',' ∉ x → splitComma x = [x] := by
  intro x
  induction x with
  | nil => intro _; rfl
  | cons c rest ih =>
    intro h
    have hc : ¬c = ',' := fun hc => h (hc ▸ List.mem_cons_self c rest)
    have hrest : ',' ∉ rest := fun hm => h (List.mem_cons_of_mem c hm)
    exact splitComma_cons_ne hc (ih hrest)

theorem splitComma_append_comma :
    ∀ {x : PyStr}, ',' ∉ x → ∀ (r : PyStr), splitComma (x ++ ',' :: r) = x :: splitComma r := by
  intro x
  induction x with
  | nil => intro _ r; simp [splitComma]
  | cons c rest ih =>
    intro h r
    have hc : ¬c = ',' := fun hc => h (hc ▸ List.mem_cons_self c rest)
    have hrest : ',' ∉ rest := fun hm => h (List.mem_cons_of_mem c hm)
    rw [List.cons_append]
    exact splitComma_cons_ne hc (ih hrest r)

theorem joinCS_cons_cons (x y : PyStr) (rest : List PyStr) :
    joinCS (x :: y :: rest) = x ++ ',' :: ' ' :: joinCS (y :: rest) := rfl

theorem splitComma_joinCS :
    ∀ {xs : List PyStr} {x : PyStr}, (∀ p ∈ x :: xs, ',' ∉ p) →
      splitComma (joinCS (x :: xs)) = x :: xs.map (fun r => ' ' :: r) := by
  intro xs
  induction xs with
  | nil =>
    intro x h
    exact splitComma_of_noComma (h x (List.mem_cons_self _ _))
  | cons y rest ih =>
    intro x h
    rw [joinCS_cons_cons]
    rw [splitComma_append_comma (h x (List.mem_cons_self _ _))]
    have hy : splitComma (joinCS (y :: rest)) = y :: rest.map (fun r => ' ' :: r) := by
      refine ih ?_
      intro p hp
      exact h p (List.mem_cons_of_mem x hp)
    have : splitComma (' ' :: joinCS (y :: rest))
        = (' ' :: y) :: rest.map (fun r => ' ' :: r) :=
      splitComma_cons_ne (by decide) hy
    rw [this]
    rfl

/-! ### `pyIndex` lemmas -/

theorem pyIndex_lt : ∀ {l : List PyStr} {x : PyStr}, x ∈ l → pyIndex l x < l.length := by
  intro l
  induction l with
  | nil => intro x h; simp at h
  | cons a rest ih =>
    intro x h
    by_cases ha : a = x
    · simp [pyIndex, ha]
    · rcases List.mem_cons.mp h with h | h
      · exact absurd h.symm ha
      · simp only [pyIndex, if_neg ha, List.length_cons]
        exact Nat.succ_lt_succ (ih h)

theorem get?_pyIndex : ∀ {l : List PyStr} {x : PyStr}, x ∈ l → l.get? (pyIndex l x) = some x := by
  intro l
  induction l with
  | nil => intro x h; simp at h
  | cons a rest ih =>
    intro x h
    by_cases ha : a = x
    · simp [pyIndex, ha]
    · rcases List.mem_cons.mp h with h | h
      · exact absurd h.symm ha
      · simp only [pyIndex, if_neg ha]
        exact ih h

theorem pyIndex_inj {l : List PyStr} {x y : PyStr} (hx : x ∈ l) (hy : y ∈ l)
    (h : pyIndex l x = pyIndex l y) : x = y := by
  have h1 := get?_pyIndex hx
  have h2 := get?_pyIndex hy
  rw [h, h2] at h1
  exact (Option.some.injEq _ _ ▸ h1).symm

/-! ### Recasing lemmas -/

theorem getD_mem_of_lt {l : List PyStr} {i : Nat} (h : i < l.length) (d : PyStr) :
    l.getD i d ∈ l := by
  rw [List.getD_eq_getElem?_getD, List.getElem?_eq_getElem h]
  exact List.getElem_mem h

theorem recase_elem {vcs : List PyStr} {n : PyStr} (h : n ∈ vcs.map lowerStr) :
    vcs.getD (pyIndex (vcs.map lowerStr) n) [] ∈ vcs
      ∧ lowerStr (vcs.getD (pyIndex (vcs.map lowerStr) n) []) = n := by
  have hlt : pyIndex (vcs.map lowerStr) n < (vcs.map lowerStr).length := pyIndex_lt h
  have hlen : (vcs.map lowerStr).length = vcs.length := List.length_map _ _
  have hget : (vcs.map lowerStr).get? (pyIndex (vcs.map lowerStr) n) = some n := get?_pyIndex h
  rw [List.get?_map] at hget
  rcases Option.map_eq_some'.mp hget with ⟨r, hr, hlow⟩
  have hgetD : vcs.getD (pyIndex (vcs.map lowerStr) n) [] = r := by
    rw [List.getD_eq_getElem?_getD, ← List.get?_eq_getElem?, hr]
    rfl
  refine ⟨?_, ?_⟩
  · rw [hgetD]
    exact List.get?_mem hr
  · rw [hgetD, hlow]

/-! ### Insertion-sort lemmas -/

theorem insertLe_perm (le : PyStr → PyStr → Bool) (x : PyStr) :
    ∀ (l : List PyStr), (insertLe le x l).Perm (x :: l) := by
  intro l
  induction l with
  | nil => simp [insertLe]
  | cons y ys ih =>
    by_cases h : le x y
    · simp [insertLe, h]
    · simp only [insertLe, h, ite_false]
      exact (ih.cons y).trans (List.Perm.swap x y ys)

theorem sortLe_perm (le : PyStr → PyStr → Bool) :
    ∀ (l : List PyStr), (sortLe le l).Perm l := by
  intro l
  induction l with
  | nil => simp [sortLe]
  | cons x xs ih =>
    exact (insertLe_perm le x (sortLe le xs)).trans (ih.cons x)

theorem insertLe_pairwise {le : PyStr → PyStr → Bool}
    (htot : ∀ a b, le a b = true ∨ le b a = true)
    (htrans : ∀ a b c, le a b = true → le b c = true → le a c = true)
    (x : PyStr) :
    ∀ {l : List PyStr}, List.Pairwise (fun a b => le a b = true) l →
      List.Pairwise (fun a b => le a b = true) (insertLe le x l) := by
  intro l
  induction l with
  | nil => intro _; simp [insertLe]
  | cons y ys ih =>
    intro hp
    rcases List.pairwise_cons.mp hp with ⟨hy, hys⟩
    by_cases h : le x y
    · simp only [insertLe, h, ite_true]
      refine List.pairwise_cons.mpr ⟨?_, hp⟩
      intro z hz
      rcases List.mem_cons.mp hz with hz | hz
      · rw [hz]; exact h
      · exact htrans x y z h (hy z hz)
    · simp only [insertLe, h, ite_false]
      refine List.pairwise_cons.mpr ⟨?_, ih hys⟩
      intro z hz
      have hz' := (insertLe_perm le x ys).mem_iff.mp hz
      rcases List.mem_cons.mp hz' with hz' | hz'
      · rw [hz']
        rcases htot x y with h' | h'
        · exact absurd h' h
        · exact h'
      · exact hy z hz'

theorem sortLe_pairwise {le : PyStr → PyStr → Bool}
    (htot : ∀ a b, le a b = true ∨ le b a = true)
    (htrans : ∀ a b c, le a b = true → le b c = true → le a c = true) :
    ∀ (l : List PyStr), List.Pairwise (fun a b => le a b = true) (sortLe le l) := by
  intro l
  induction l with
  | nil => simp [sortLe]
  | cons x xs ih => exact insertLe_pairwise htot htrans x ih

theorem sortLe_eq_self {le : PyStr → PyStr → Bool} :
    ∀ {l : List PyStr}, List.Pairwise (fun a b => le a b = true) l → sortLe le l = l := by
  intro l
  induction l with
  | nil => intro _; rfl
  | cons x xs ih =>
    intro hp
    rcases List.pairwise_cons.mp hp with ⟨hx, hxs⟩
    show insertLe le x (sortLe le xs) = x :: xs
    rw [ih hxs]
    cases xs with
    | nil => rfl
    | cons y ys =>
      have : le x y = true := hx y (List.mem_cons_self y ys)
      simp [insertLe, this]

/-! ### `getVal` / `setKey` lemmas -/

theorem getVal_append (a b : List (String × JVal)) (k : String) :
    getVal (a ++ b) k =
      match getVal a k with
      | some v => some v
      | none => getVal b k := by
  induction a with
  | nil => rfl
  | cons p rest ih =>
    rcases p with ⟨k', v⟩
    by_cases h : k' = k
    · simp [getVal, h]
    · simpa [getVal, h] using ih

theorem getVal_none_forall :
    ∀ {kvs : List (String × JVal)} {k : String},
      getVal kvs k = none ↔ ∀ p ∈ kvs, p.1 ≠ k := by
  intro kvs
  induction kvs with
  | nil => intro k; simp [getVal]
  | cons p rest ih =>
    intro k
    rcases p with ⟨k', v⟩
    by_cases h : k' = k
    · simp [getVal, h]
    · simp [getVal, h, ih]

theorem getVal_isSome_of_mem {kvs : List (String × JVal)} {k : String} {v : JVal}
    (h : (k, v) ∈ kvs) : (getVal kvs k).isSome := by
  cases hg : getVal kvs k with
  | some w => rfl
  | none => exact absurd rfl (getVal_none_forall.mp hg (k, v) h)

theorem getVal_map_set {k : String} {v : JVal} :
    ∀ {kvs : List (String × JVal)} {w : JVal}, getVal kvs k = some w →
      getVal (kvs.map (fun p => if p.1 = k then (k, v) else p)) k = some v := by
  intro kvs
  induction kvs with
  | nil => intro w h; simp [getVal] at h
  | cons p rest ih =>
    intro w h
    rcases p with ⟨k', v'⟩
    rw [List.map_cons]
    by_cases hk : k' = k
    · subst hk
      rw [if_pos (show (k', v').1 = k' from rfl)]
      simp [getVal]
    · rw [if_neg (show ¬(k', v').1 = k from hk)]
      simp only [getVal, if_neg hk] at h ⊢
      exact ih h

theorem getVal_map_set_ne {k k' : String} (hne : ¬k' = k) {v : JVal} :
    ∀ (kvs : List (String × JVal)),
      getVal (kvs.map (fun p => if p.1 = k then (k, v) else p)) k' = getVal kvs k' := by
  intro kvs
  induction kvs with
  | nil => rfl
  | cons p rest ih =>
    rcases p with ⟨k1, v1⟩
    rw [List.map_cons]
    by_cases hk : k1 = k
    · subst hk
      rw [if_pos (show (k1, v1).1 = k1 from rfl)]
      have hne' : ¬k1 = k' := fun h => hne h.symm
      simp only [getVal, if_neg hne', ih]
    · rw [if_neg (show ¬(k1, v1).1 = k from hk)]
      by_cases hk' : k1 = k'
      · subst hk'
        simp [getVal]
      · simp only [getVal, if_neg hk', ih]

theorem getVal_setKey_self (kvs : List (String × JVal)) (k : String) (v : JVal) :
    getVal (setKey kvs k v) k = some v := by
  unfold setKey
  cases hg : getVal kvs k with
  | some w =>
    simp only [hg, Option.isSome_some, ite_true]
    exact getVal_map_set hg
  | none =>
    simp only [hg, Option.isSome_none, Bool.false_eq_true, ite_false]
    rw [getVal_append, hg]
    simp [getVal]

theorem getVal_setKey_ne {k k' : String} (hne : ¬k' = k)
    (kvs : List (String × JVal)) (v : JVal) :
    getVal (setKey kvs k v) k' = getVal kvs k' := by
  unfold setKey
  cases hg : getVal kvs k with
  | some w =>
    simp only [hg, Option.isSome_some, ite_true]
    exact getVal_map_set_ne hne kvs
  | none =>
    simp only [hg, Option.isSome_none, Bool.false_eq_true, ite_false]
    rw [getVal_append]
    cases hg' : getVal kvs k' with
    | some w => rfl
    | none =>
      have hne' : ¬k = k' := fun h => hne h.symm
      simp [getVal, hne']

theorem setKey_eq_map {kvs : List (String × JVal)} {k : String} {v : JVal}
    (h : (getVal kvs k).isSome) :
    setKey kvs k v = kvs.map (fun p => if p.1 = k then (k, v) else p) := by
  unfold setKey
  rw [if_pos h]

theorem setKey_eq_append {kvs : List (String × JVal)} {k : String} {v : JVal}
    (h : getVal kvs k = none) :
    setKey kvs k v = kvs ++ [(k, v)] := by
  unfold setKey
  rw [if_neg (by rw [h]; simp)]

theorem set_fun_idem (k : String) (v : JVal) (p : String × JVal) :
    (if ((if p.1 = k then (k, v) else p) : String × JVal).1 = k then (k, v)
      else (if p.1 = k then (k, v) else p)) = if p.1 = k then (k, v) else p := by
  by_cases hk : p.1 = k
  · rw [if_pos hk]
    rw [if_pos (show (k, v).1 = k from rfl)]
  · rw [if_neg hk, if_neg hk]

theorem setKey_setKey (kvs : List (String × JVal)) (k : String) (v : JVal) :
    setKey (setKey kvs k v) k v = setKey kvs k v := by
  have hsome : (getVal (setKey kvs k v) k).isSome := by
    rw [getVal_setKey_self]; rfl
  rw [setKey_eq_map hsome]
  cases hg : getVal kvs k with
  | some w =>
    rw [setKey_eq_map (by rw [hg]; rfl)]
    rw [List.map_map]
    refine List.map_congr_left ?_
    intro p _
    exact set_fun_idem k v p
  | none =>
    rw [setKey_eq_append hg, List.map_append]
    have h1 : kvs.map (fun p => if p.1 = k then (k, v) else p) = kvs := by
      have : kvs.map (fun p => if p.1 = k then (k, v) else p) = kvs.map id :=
        List.map_congr_left (fun p hp => by rw [if_neg (getVal_none_forall.mp hg p hp)]; rfl)
      rw [this, List.map_id]
    have h2 : [(k, v)].map (fun p => if p.1 = k then (k, v) else p) = [(k, v)] := by
      simp
    rw [h1, h2]

/-! ### `mapExcept` lemmas -/

theorem mapExcept_length {f : JVal → Except PyError JVal} :
    ∀ {l l' : List JVal}, mapExcept f l = .ok l' → l'.length = l.length := by
  intro l
  induction l with
  | nil => intro l' h; simp only [mapExcept] at h; cases h; rfl
  | cons x xs ih =>
    intro l' h
    simp only [mapExcept] at h
    cases hfx : f x with
    | error e => rw [hfx] at h; cases h
    | ok y =>
      rw [hfx] at h
      cases hrest : mapExcept f xs with
      | error e => rw [hrest] at h; cases h
      | ok ys =>
        rw [hrest] at h
        cases h
        simp [ih hrest]

theorem mapExcept_get? {f : JVal → Except PyError JVal} :
    ∀ {l l' : List JVal}, mapExcept f l = .ok l' →
      ∀ (i : Nat) (x : JVal), l[i]? = some x → ∃ y, l'[i]? = some y ∧ f x = .ok y := by
  intro l
  induction l with
  | nil => intro l' h i x hx; simp at hx
  | cons a xs ih =>
    intro l' h i x hx
    simp only [mapExcept] at h
    cases hfa : f a with
    | error e => rw [hfa] at h; cases h
    | ok y =>
      rw [hfa] at h
      cases hrest : mapExcept f xs with
      | error e => rw [hrest] at h; cases h
      | ok ys =>
        rw [hrest] at h
        cases h
        cases i with
        | zero =>
          simp only [List.getElem?_cons_zero, Option.some.injEq] at hx
          exact ⟨y, by simp, hx ▸ hfa⟩
        | succ j =>
          simp only [List.getElem?_cons_succ] at hx
          simpa using ih hrest j x hx

theorem mapExcept_eq_self {f : JVal → Except PyError JVal} :
    ∀ {l : List JVal}, (∀ x ∈ l, f x = .ok x) → mapExcept f l = .ok l := by
  intro l
  induction l with
  | nil => intro _; rfl
  | cons x xs ih =>
    intro h
    simp only [mapExcept]
    rw [h x (List.mem_cons_self x xs), ih (fun y hy => h y (List.mem_cons_of_mem x hy))]

theorem mapExcept_error_of_mem {f : JVal → Except PyError JVal} :
    ∀ {l : List JVal} {x : JVal} {e : PyError}, x ∈ l → f x = .error e →
      ∃ e', mapExcept f l = .error e' := by
  intro l
  induction l with
  | nil => intro x e hx _; simp at hx
  | cons a xs ih =>
    intro x e hx hfx
    simp only [mapExcept]
    cases hfa : f a with
    | error e2 => exact ⟨e2, rfl⟩
    | ok y =>
      rcases List.mem_cons.mp hx with hx | hx
      · rw [hx] at hfx; rw [hfx] at hfa; cases hfa
      · rcases ih hx hfx with ⟨e', he'⟩
        rw [he']
        exact ⟨e', rfl⟩

/-! ### `invalidOf` / `dropInvalid` lemmas -/

theorem mem_invalidOf {vlc u : List PyStr} {c : PyStr} :
    c ∈ invalidOf vlc u ↔ c ∈ u ∧ c ∉ vlc := by
  simp [invalidOf]

theorem invalidOf_eq_nil_iff {vlc u : List PyStr} :
    invalidOf vlc u = [] ↔ ∀ c ∈ u, c ∈ vlc := by
  unfold invalidOf
  rw [List.filter_eq_nil]
  constructor
  · intro h c hc
    by_contra hvc
    exact absurd (decide_eq_true hvc) (by simpa using h c hc)
  · intro h c hc
    simpa using h c hc

theorem mem_dropInvalid {vlc u : List PyStr} {c : PyStr} (h : c ∈ dropInvalid vlc u) :
    c ∈ u ∧ c ∈ vlc := by
  unfold dropInvalid at h
  by_cases he : (invalidOf vlc u).isEmpty
  · rw [if_pos he] at h
    have hnil : invalidOf vlc u = [] := List.isEmpty_iff.mp he
    exact ⟨h, invalidOf_eq_nil_iff.mp hnil c h⟩
  · rw [if_neg he] at h
    rcases List.mem_filter.mp h with ⟨hu, hdec⟩
    refine ⟨hu, ?_⟩
    by_contra hvc
    have : c ∈ invalidOf vlc u := mem_invalidOf.mpr ⟨hu, hvc⟩
    simp at hdec
    exact hdec this

theorem dropInvalid_nodup {vlc u : List PyStr} (h : u.Nodup) : (dropInvalid vlc u).Nodup := by
  unfold dropInvalid
  by_cases he : (invalidOf vlc u).isEmpty
  · rwa [if_pos he]
  · rw [if_neg he]
    exact h.filter _

theorem dropInvalid_eq_self {vlc u : List PyStr} (h : ∀ c ∈ u, c ∈ vlc) :
    dropInvalid vlc u = u := by
  unfold dropInvalid
  rw [if_pos (by rw [invalidOf_eq_nil_iff.mpr h]; rfl)]

/-! ### `sortByValid` lemmas -/

theorem sortByValid_perm (vlc u : List PyStr) : (sortByValid vlc u).Perm u :=
  sortLe_perm _ u

theorem sortByValid_pairwise (vlc u : List PyStr) :
    List.Pairwise (fun a b => pyIndex vlc a ≤ pyIndex vlc b) (sortByValid vlc u) := by
  have htot : ∀ a b : PyStr,
      (decide (pyIndex vlc a ≤ pyIndex vlc b)) = true
        ∨ (decide (pyIndex vlc b ≤ pyIndex vlc a)) = true := by
    intro a b
    rcases Nat.le_total (pyIndex vlc a) (pyIndex vlc b) with h | h
    · exact Or.inl (decide_eq_true h)
    · exact Or.inr (decide_eq_true h)
  have htrans : ∀ a b c : PyStr,
      (decide (pyIndex vlc a ≤ pyIndex vlc b)) = true →
      (decide (pyIndex vlc b ≤ pyIndex vlc c)) = true →
      (decide (pyIndex vlc a ≤ pyIndex vlc c)) = true := by
    intro a b c h1 h2
    exact decide_eq_true (Nat.le_trans (of_decide_eq_true h1) (of_decide_eq_true h2))
  have hp := sortLe_pairwise htot htrans u
  exact hp.imp (fun h => of_decide_eq_true h)

theorem sortByValid_eq_self {vlc u : List PyStr}
    (h : List.Pairwise (fun a b => pyIndex vlc a ≤ pyIndex vlc b) u) :
    sortByValid vlc u = u :=
  sortLe_eq_self (h.imp (fun hab => decide_eq_true hab))

/-! ### `recase` lemmas -/

theorem recase_mem {vcs : List PyStr} {ns : List PyStr}
    (h : ∀ n ∈ ns, n ∈ vcs.map lowerStr) :
    ∀ x ∈ recase vcs (vcs.map lowerStr) ns, x ∈ vcs := by
  intro x hx
  rcases List.mem_map.mp hx with ⟨n, hn, he⟩
  exact he ▸ (recase_elem (h n hn)).1

theorem recase_lower {vcs : List PyStr} {ns : List PyStr}
    (h : ∀ n ∈ ns, n ∈ vcs.map lowerStr) :
    (recase vcs (vcs.map lowerStr) ns).map lowerStr = ns := by
  unfold recase
  rw [List.map_map]
  have : ns.map (lowerStr ∘ fun n => vcs.getD (pyIndex (vcs.map lowerStr) n) []) = ns.map id :=
    List.map_congr_left (fun n hn => (recase_elem (h n hn)).2)
  rw [this, List.map_id]

theorem recase_ordered {vcs : List PyStr} {ns : List PyStr}
    (hnd : ns.Nodup) (hmem : ∀ n ∈ ns, n ∈ vcs.map lowerStr)
    (hp : List.Pairwise (fun a b =>
      pyIndex (vcs.map lowerStr) a ≤ pyIndex (vcs.map lowerStr) b) ns) :
    OrderedByValid (vcs.map lowerStr) (recase vcs (vcs.map lowerStr) ns) := by
  unfold OrderedByValid recase
  rw [List.pairwise_map]
  have hcomb := hp.and hnd
  refine hcomb.imp_of_mem ?_
  intro a b ha hb hab
  rcases hab with ⟨hle, hne⟩
  rw [(recase_elem (hmem a ha)).2, (recase_elem (hmem b hb)).2]
  have hidx : pyIndex (vcs.map lowerStr) a ≠ pyIndex (vcs.map lowerStr) b :=
    fun h => hne (pyIndex_inj (hmem a ha) (hmem b hb) h)
  omega

/-! ### Correction-pass state lemmas -/

theorem pySetAdd_mem {st : List PyStr} {x c : PyStr} (h : c ∈ pySetAdd st x) :
    c ∈ st ∨ c = x := by
  unfold pySetAdd at h
  by_cases hx : x ∈ st
  · rw [if_pos hx] at h
    exact Or.inl h
  · rw [if_neg hx] at h
    rcases List.mem_append.mp h with h | h
    · exact Or.inl h
    · exact Or.inr (List.mem_singleton.mp h)

theorem pySetAdd_nodup {st : List PyStr} {x : PyStr} (h : st.Nodup) :
    (pySetAdd st x).Nodup := by
  unfold pySetAdd
  by_cases hx : x ∈ st
  · rwa [if_pos hx]
  · rw [if_neg hx]
    rw [List.nodup_append]
    refine ⟨h, List.nodup_singleton x, ?_⟩
    intro a ha hax
    exact hx ((List.mem_singleton.mp hax) ▸ ha)

theorem correctInner_mem {c : PyStr} :
    ∀ {l st st' : List PyStr}, correctInner c st l = .ok st' →
      ∀ x ∈ st', x ∈ st ∨ x ∈ l := by
  intro l
  induction l with
  | nil =>
    intro st st' h x hx
    simp only [correctInner] at h
    cases h
    exact Or.inl hx
  | cons vc rest ih =>
    intro st st' h x hx
    simp only [correctInner] at h
    by_cases hsw : pyStartsWith c vc
    · rw [if_pos hsw] at h
      cases hrm : pySetRemove st c with
      | error e => rw [hrm] at h; cases h
      | ok st1 =>
        rw [hrm] at h
        rcases ih h x hx with hmem | hmem
        · rcases pySetAdd_mem hmem with hmem | hmem
          · unfold pySetRemove at hrm
            by_cases hc : c ∈ st
            · rw [if_pos hc] at hrm
              cases hrm
              exact Or.inl (List.mem_of_mem_erase hmem)
            · rw [if_neg hc] at hrm; cases hrm
          · exact Or.inr (by rw [hmem]; exact List.mem_cons_self vc rest)
        · exact Or.inr (List.mem_cons_of_mem vc hmem)
    · rw [if_neg hsw] at h
      rcases ih h x hx with hmem | hmem
      · exact Or.inl hmem
      · exact Or.inr (List.mem_cons_of_mem vc hmem)

theorem correctInner_nodup {c : PyStr} :
    ∀ {l st st' : List PyStr}, correctInner c st l = .ok st' → st.Nodup → st'.Nodup := by
  intro l
  induction l with
  | nil =>
    intro st st' h hnd
    simp only [correctInner] at h
    cases h
    exact hnd
  | cons vc rest ih =>
    intro st st' h hnd
    simp only [correctInner] at h
    by_cases hsw : pyStartsWith c vc
    · rw [if_pos hsw] at h
      cases hrm : pySetRemove st c with
      | error e => rw [hrm] at h; cases h
      | ok st1 =>
        rw [hrm] at h
        have hst1 : st1.Nodup := by
          unfold pySetRemove at hrm
          by_cases hc : c ∈ st
          · rw [if_pos hc] at hrm
            cases hrm
            exact hnd.erase c
          · rw [if_neg hc] at hrm; cases hrm
        exact ih h (pySetAdd_nodup hst1)
    · rw [if_neg hsw] at h
      exact ih h hnd

theorem correctAll_mem {vlc : List PyStr} :
    ∀ {cs st st' : List PyStr}, correctAll vlc st cs = .ok st' →
      ∀ x ∈ st', x ∈ st ∨ x ∈ vlc := by
  intro cs
  induction cs with
  | nil =>
    intro st st' h x hx
    simp only [correctAll] at h
    cases h
    exact Or.inl hx
  | cons c rest ih =>
    intro st st' h x hx
    simp only [correctAll] at h
    cases hci : correctInner c st vlc with
    | error e => rw [hci] at h; cases h
    | ok st1 =>
      rw [hci] at h
      rcases ih h x hx with hmem | hmem
      · exact correctInner_mem hci x hmem
      · exact Or.inr hmem

theorem correctAll_nodup {vlc : List PyStr} :
    ∀ {cs st st' : List PyStr}, correctAll vlc st cs = .ok st' → st.Nodup → st'.Nodup := by
  intro cs
  induction cs with
  | nil =>
    intro st st' h hnd
    simp only [correctAll] at h
    cases h
    exact hnd
  | cons c rest ih =>
    intro st st' h hnd
    simp only [correctAll] at h
    cases hci : correctInner c st vlc with
    | error e => rw [hci] at h; cases h
    | ok st1 =>
      rw [hci] at h
      exact ih h (correctInner_nodup hci hnd)

/-! ### `normalizeClasses` structure lemmas -/

theorem normalizeClasses_false (vcs : List PyStr) (s : PyStr) :
    normalizeClasses vcs false s
      = .ok (finalize vcs (vcs.map lowerStr) ((classListOf s).dedup)) := by
  simp [normalizeClasses]

theorem normalizeClasses_ok_shape {vcs : List PyStr} {cpn : Bool} {s out : PyStr}
    (h : normalizeClasses vcs cpn s = .ok out) :
    ∃ u : List PyStr, u.Nodup
      ∧ (∀ c ∈ u, c ∈ (classListOf s).dedup ∨ c ∈ vcs.map lowerStr)
      ∧ out = finalize vcs (vcs.map lowerStr) u := by
  unfold normalizeClasses at h
  by_cases hc : (cpn && !((invalidOf (vcs.map lowerStr) ((classListOf s).dedup)).isEmpty)) = true
  · rw [if_pos hc] at h
    cases hca : correctAll (vcs.map lowerStr) ((classListOf s).dedup)
        (invalidOf (vcs.map lowerStr) ((classListOf s).dedup)) with
    | error e => rw [hca] at h; cases h
    | ok u1 =>
      rw [hca] at h
      cases h
      exact ⟨u1, correctAll_nodup hca (List.nodup_dedup _),
        fun c hc => correctAll_mem hca c hc, rfl⟩
  · rw [if_neg hc] at h
    cases h
    exact ⟨(classListOf s).dedup, List.nodup_dedup _, fun c hc => Or.inl hc, rfl⟩

/-- Every entry of `classListOf s` is a stripped, comma-free string. -/
theorem classListOf_clean {s : PyStr} {n : PyStr} (h : n ∈ classListOf s) :
    pyStrip n = n ∧ ',' ∉ n := by
  unfold classListOf at h
  rcases List.mem_map.mp h with ⟨t, ht, he⟩
  rcases List.mem_map.mp ht with ⟨p, hp, he2⟩
  subst he2
  subst he
  refine ⟨pyStrip_lower_strip p, ?_⟩
  have hnc : ',' ∉ p := noComma_mem_splitComma hp
  have hnc2 : ',' ∉ pyStrip p := fun hm => hnc (mem_of_mem_pyStrip hm)
  exact comma_not_mem_lowerStr hnc2

/-! ### Output shape of `finalize` (membership, order) -/

theorem finalize_exists {vcs : List PyStr} {u : List PyStr} (hnd : u.Nodup) :
    ∃ xs, finalize vcs (vcs.map lowerStr) u = joinCS xs
      ∧ (∀ x ∈ xs, x ∈ vcs) ∧ OrderedByValid (vcs.map lowerStr) xs := by
  refine ⟨recase vcs (vcs.map lowerStr)
    (sortByValid (vcs.map lowerStr) (dropInvalid (vcs.map lowerStr) u)), rfl, ?_, ?_⟩
  all_goals {
    have hmem : ∀ n ∈ sortByValid (vcs.map lowerStr) (dropInvalid (vcs.map lowerStr) u),
        n ∈ vcs.map lowerStr := by
      intro n hn
      exact (mem_dropInvalid ((sortByValid_perm _ _).mem_iff.mp hn)).2
    first
    | exact recase_mem hmem
    | {
        refine recase_ordered ?_ hmem (sortByValid_pairwise _ _)
        exact ((sortByValid_perm _ _).nodup_iff).mpr (dropInvalid_nodup hnd)
      }
  }

/-! ### Fixed point of the normalization pipeline (the idempotence core) -/

theorem normalize_fixpoint_aux {vcs : List PyStr} {ns : List PyStr}
    (hnd : ns.Nodup) (hmem : ∀ n ∈ ns, n ∈ vcs.map lowerStr)
    (hpair : List.Pairwise (fun a b =>
      pyIndex (vcs.map lowerStr) a ≤ pyIndex (vcs.map lowerStr) b) ns)
    (hclean : ∀ n ∈ ns, pyStrip n = n ∧ ',' ∉ n)
    (hne : joinCS (recase vcs (vcs.map lowerStr) ns) ≠ []) :
    normalizeClasses vcs false (joinCS (recase vcs (vcs.map lowerStr) ns))
      = .ok (joinCS (recase vcs (vcs.map lowerStr) ns)) := by
  have hlowrs : (recase vcs (vcs.map lowerStr) ns).map lowerStr = ns := recase_lower hmem
  have hrsclean : ∀ r ∈ recase vcs (vcs.map lowerStr) ns, pyStrip r = r ∧ ',' ∉ r := by
    intro r hr
    rcases List.mem_map.mp hr with ⟨n, hn, he⟩
    have hlow : lowerStr r = n := by
      rw [← he]
      exact (recase_elem (hmem n hn)).2
    rcases hclean n hn with ⟨hstr, hcom⟩
    constructor
    · exact pyStrip_of_lower_stripped (by rw [hlow]; exact hstr)
    · exact comma_not_mem_of_lower (by rw [hlow]; exact hcom)
  cases hrs0 : recase vcs (vcs.map lowerStr) ns with
  | nil =>
    rw [hrs0] at hne
    exact absurd rfl hne
  | cons r rest =>
    rw [hrs0] at hlowrs hrsclean
    have hsplit : splitComma (joinCS (r :: rest)) = r :: rest.map (fun t => ' ' :: t) :=
      splitComma_joinCS (fun p hp => (hrsclean p hp).2)
    have hstripmap : ((r :: rest.map (fun t => ' ' :: t)).map pyStrip) = r :: rest := by
      rw [List.map_cons, (hrsclean r (List.mem_cons_self r rest)).1]
      congr 1
      rw [List.map_map]
      have hpt : rest.map (pyStrip ∘ fun t => ' ' :: t) = rest.map id :=
        List.map_congr_left (fun t ht => by
          show pyStrip (' ' :: t) = t
          rw [pyStrip_space_cons]
          exact (hrsclean t (List.mem_cons_of_mem r ht)).1)
      rw [hpt, List.map_id]
    have hparse : classListOf (joinCS (r :: rest)) = ns := by
      unfold classListOf
      rw [hsplit, hstripmap, hlowrs]
    rw [normalizeClasses_false, hparse, List.dedup_eq_self.mpr hnd]
    unfold finalize
    rw [dropInvalid_eq_self hmem, sortByValid_eq_self hpair, hrs0]

theorem normalize_fixpoint {vcs u : List PyStr} (hnd : u.Nodup)
    (hclean : ∀ n ∈ u, pyStrip n = n ∧ ',' ∉ n)
    (hne : finalize vcs (vcs.map lowerStr) u ≠ []) :
    normalizeClasses vcs false (finalize vcs (vcs.map lowerStr) u)
      = .ok (finalize vcs (vcs.map lowerStr) u) := by
  have hmem : ∀ n ∈ sortByValid (vcs.map lowerStr) (dropInvalid (vcs.map lowerStr) u),
      n ∈ vcs.map lowerStr := by
    intro n hn
    exact (mem_dropInvalid ((sortByValid_perm _ _).mem_iff.mp hn)).2
  have hnd' : (sortByValid (vcs.map lowerStr) (dropInvalid (vcs.map lowerStr) u)).Nodup :=
    ((sortByValid_perm _ _).nodup_iff).mpr (dropInvalid_nodup hnd)
  have hclean' : ∀ n ∈ sortByValid (vcs.map lowerStr) (dropInvalid (vcs.map lowerStr) u),
      pyStrip n = n ∧ ',' ∉ n := by
    intro n hn
    exact hclean n (mem_dropInvalid ((sortByValid_perm _ _).mem_iff.mp hn)).1
  exact normalize_fixpoint_aux hnd' hmem (sortByValid_pairwise _ _) hclean' hne

/-! ### Small `List.get?`/`List.set` helpers -/

theorem lt_of_get?_eq_some {l : List JVal} {i : Nat} {x : JVal} (h : l[i]? = some x) :
    i < l.length := by
  by_contra hlt
  rw [List.getElem?_eq_none (Nat.le_of_not_lt hlt)] at h
  cases h

theorem get?_set_self : ∀ {l : List JVal} {i : Nat}, i < l.length →
    ∀ (x : JVal), (l.set i x)[i]? = some x := by
  intro l
  induction l with
  | nil => intro i h x; simp at h
  | cons a rest ih =>
    intro i h x
    cases i with
    | zero => simp [List.set]
    | succ j =>
      simp only [List.length_cons] at h
      simpa [List.set] using ih (Nat.lt_of_succ_lt_succ h) x

theorem get?_set_ne {l : List JVal} {i j : Nat} (h : i ≠ j) (x : JVal) :
    (l.set i x)[j]? = l[j]? :=
  List.getElem?_set_ne h

/-! ### Fixed point of `cleanItem` (with `correct_partial_names` disabled) -/

theorem cleanItem_fixpoint {vcs : List PyStr} {item item' : JVal}
    (h : cleanItem vcs false item = .ok item') : cleanItem vcs false item' = .ok item' := by
  cases item with
  | obj kvs =>
    cases hg : getVal kvs "classes" with
    | none =>
      simp only [cleanItem, hg] at h
      cases h
      simp only [cleanItem, hg]
    | some v =>
      cases v with
      | str s =>
        by_cases hs : s.isEmpty
        · simp only [cleanItem, hg, hs, ite_true] at h
          cases h
          simp only [cleanItem, hg, hs, ite_true]
        · simp only [cleanItem, hg, hs, ite_false, normalizeClasses_false] at h
          cases h
          have hout : finalize vcs (vcs.map lowerStr) ((classListOf s).dedup) ≠ [] →
              normalizeClasses vcs false (finalize vcs (vcs.map lowerStr) ((classListOf s).dedup))
                = .ok (finalize vcs (vcs.map lowerStr) ((classListOf s).dedup)) :=
            normalize_fixpoint (List.nodup_dedup _)
              (fun n hn => classListOf_clean (List.mem_dedup.mp hn))
          by_cases hoe : (finalize vcs (vcs.map lowerStr) ((classListOf s).dedup)).isEmpty
          · simp only [cleanItem, getVal_setKey_self, hoe, ite_true]
          · have hne : finalize vcs (vcs.map lowerStr) ((classListOf s).dedup) ≠ [] := by
              intro hnil
              rw [hnil] at hoe
              exact hoe rfl
            simp only [cleanItem, getVal_setKey_self, hoe, ite_false, hout hne, setKey_setKey,
              ite_self]
      | int n =>
        simp only [cleanItem, hg] at h
        by_cases ht : (JVal.int n).truthy
        · rw [if_pos ht] at h; cases h
        · rw [if_neg ht] at h
          cases h
          simp only [cleanItem, hg]
          rw [if_neg ht]
      | bool b =>
        simp only [cleanItem, hg] at h
        by_cases ht : (JVal.bool b).truthy
        · rw [if_pos ht] at h; cases h
        · rw [if_neg ht] at h
          cases h
          simp only [cleanItem, hg]
          rw [if_neg ht]
      | arr xs =>
        simp only [cleanItem, hg] at h
        by_cases ht : (JVal.arr xs).truthy
        · rw [if_pos ht] at h; cases h
        · rw [if_neg ht] at h
          cases h
          simp only [cleanItem, hg]
          rw [if_neg ht]
      | obj kvs2 =>
        simp only [cleanItem, hg] at h
        by_cases ht : (JVal.obj kvs2).truthy
        · rw [if_pos ht] at h; cases h
        · rw [if_neg ht] at h
          cases h
          simp only [cleanItem, hg]
          rw [if_neg ht]
  | str s => simp [cleanItem] at h
  | int n => simp [cleanItem] at h
  | bool b => simp [cleanItem] at h
  | arr xs => simp [cleanItem] at h

/-! ### `pyDictMerge` lemmas -/

theorem getVal_mergePart1 (d i : List (String × JVal)) (k : String) :
    getVal (d.map (fun p =>
        (p.1, match getVal i p.1 with
              | some v => v
              | none => p.2))) k
      = match getVal d k with
        | none => none
        | some dv => some (match getVal i k with
                           | some v => v
                           | none => dv) := by
  induction d with
  | nil => rfl
  | cons p rest ih =>
    rcases p with ⟨k1, v1⟩
    rw [List.map_cons]
    by_cases hk : k1 = k
    · subst hk
      simp [getVal]
    · simp only [getVal, if_neg hk]
      exact ih

theorem getVal_mergePart1_none {d i : List (String × JVal)} {k : String}
    (h : getVal d k = none) :
    getVal (d.map (fun p =>
        (p.1, match getVal i p.1 with
              | some v => v
              | none => p.2))) k = none := by
  rw [getVal_mergePart1, h]

theorem getVal_filter_keep {g : String × JVal → Bool} {k : String} :
    ∀ {l : List (String × JVal)}, (∀ p : String × JVal, p.1 = k → g p = true) →
      getVal (l.filter g) k = getVal l k := by
  intro l
  induction l with
  | nil => intro _; rfl
  | cons p rest ih =>
    intro hg
    rcases p with ⟨k1, v1⟩
    by_cases hk : k1 = k
    · subst hk
      rw [List.filter_cons_of_pos (hg (k1, v1) rfl)]
      simp [getVal]
    · by_cases hgp : g (k1, v1)
      · rw [List.filter_cons_of_pos hgp]
        simp only [getVal, if_neg hk]
        exact ih hg
      · rw [List.filter_cons_of_neg (by simpa using hgp)]
        simp only [getVal, if_neg hk]
        exact ih hg

/-- `dict(d, **i)` is idempotent in `i` when `d` has no duplicate keys
(the case for `_default_data`): merging the merged record again with the
same defaults reproduces it exactly. -/
theorem pyDictMerge_idem {d : List (String × JVal)}
    (hd : ∀ p ∈ d, getVal d p.1 = some p.2) (i : List (String × JVal)) :
    pyDictMerge d (pyDictMerge d i) = pyDictMerge d i := by
  unfold pyDictMerge
  congr 1
  · refine List.map_congr_left ?_
    intro p hp
    have hm : getVal (d.map (fun p =>
        (p.1, match getVal i p.1 with
              | some v => v
              | none => p.2))
        ++ i.filter (fun p => !(getVal d p.1).isSome)) p.1
        = some (match getVal i p.1 with
                | some v => v
                | none => p.2) := by
      rw [getVal_append, getVal_mergePart1, hd p hp]
    rw [hm]
  · rw [List.filter_append]
    have h1 : (d.map (fun p =>
        (p.1, match getVal i p.1 with
              | some v => v
              | none => p.2))).filter (fun p => !(getVal d p.1).isSome) = [] := by
      rw [List.filter_eq_nil]
      intro p hp
      rcases List.mem_map.mp hp with ⟨q, hq, he⟩
      have hkey : p.1 = q.1 := by rw [← he]
      rw [hkey, hd q hq]
      simp
    have h2 : (i.filter (fun p => !(getVal d p.1).isSome)).filter
        (fun p => !(getVal d p.1).isSome) = i.filter (fun p => !(getVal d p.1).isSome) := by
      rw [List.filter_filter]
      refine List.filter_congr ?_
      intro p _
      simp
    rw [h1, h2, List.nil_append]

/-- `_default_data` has no duplicate keys: each pair is found by looking
up its own key. -/
theorem default_data_sound : ∀ p ∈ _default_data, getVal _default_data p.1 = some p.2 := by
  intro p hp
  fin_cases hp <;> rfl

/-! ### C7 / C8: idempotence theorems -/

/-- C7: for all documents `d` and valid-class lists `vc`, the Class
Normalizer is idempotent: `normalize_classes(normalize_classes(d, vc), vc)
== normalize_classes(d, vc)`.  The claim's call form leaves
`correct_partial_names` at its default `False`; whenever `clean_classes`
succeeds, running it again on its output succeeds and returns the output
unchanged. -/
theorem clean_classes_idempotent (data : List JVal) (vcs : List PyStr) (data' : List JVal)
    (h : clean_classes data vcs false = .ok data') :
    clean_classes data' vcs false = .ok data' := by
  cases hd2 : data[2]? with
  | none => simp [clean_classes, hd2] at h
  | some v =>
    cases v with
    | obj kvs =>
      cases hgd : getVal kvs "data" with
      | none => simp [clean_classes, hd2, hgd] at h
      | some internal =>
        cases internal with
        | arr items =>
          cases hm : mapExcept (cleanItem vcs false) items with
          | error e => simp [clean_classes, hd2, hgd, hm] at h
          | ok newItems =>
            simp only [clean_classes, hd2, hgd, hm] at h
            cases h
            have hlt : 2 < data.length := lt_of_get?_eq_some hd2
            have hd2' : (data.set 2 (.obj (setKey kvs "data" (.arr newItems))))[2]?
                = some (.obj (setKey kvs "data" (.arr newItems))) := get?_set_self hlt _
            have hpoint : ∀ y ∈ newItems, cleanItem vcs false y = .ok y := by
              intro y hy
              rcases List.getElem?_of_mem hy with ⟨i, hi⟩
              have hilen : i < items.length := by
                have h1 : i < newItems.length := lt_of_get?_eq_some hi
                rwa [mapExcept_length hm] at h1
              have hx : items[i]? = some (items[i]) := List.getElem?_eq_getElem hilen
              rcases mapExcept_get? hm i _ hx with ⟨y', hy', hf⟩
              rw [hi] at hy'
              cases hy'
              exact cleanItem_fixpoint hf
            simp only [clean_classes, hd2', getVal_setKey_self,
              mapExcept_eq_self hpoint, setKey_setKey, List.set_set]
        | obj kvs2 =>
          by_cases he : kvs2.isEmpty
          · simp only [clean_classes, hd2, hgd, he, ite_true] at h
            cases h
            simp only [clean_classes, hd2, hgd, he, ite_true]
          · simp [clean_classes, hd2, hgd, he] at h
        | str s =>
          by_cases he : s.isEmpty
          · simp only [clean_classes, hd2, hgd, he, ite_true] at h
            cases h
            simp only [clean_classes, hd2, hgd, he, ite_true]
          · simp [clean_classes, hd2, hgd, he] at h
        | int n => simp [clean_classes, hd2, hgd] at h
        | bool b => simp [clean_classes, hd2, hgd] at h
    | str s => simp [clean_classes, hd2] at h
    | int n => simp [clean_classes, hd2] at h
    | bool b => simp [clean_classes, hd2] at h
    | arr xs => simp [clean_classes, hd2] at h

/-- C8: applying the Patcher twice yields the same result as applying it
once (`patch(patch(d)) == patch(d)`): whenever `patch_missing_fields`
succeeds on a document, running it again on the result succeeds and
returns the result unchanged. -/
theorem patch_missing_fields_idempotent (data data' : List JVal)
    (h : patch_missing_fields data = .ok data') :
    patch_missing_fields data' = .ok data' := by
  cases hd2 : data[2]? with
  | none => simp [patch_missing_fields, hd2] at h
  | some v =>
    cases v with
    | obj kvs =>
      cases hgd : getVal kvs "data" with
      | none => simp [patch_missing_fields, hd2, hgd] at h
      | some internal =>
        cases internal with
        | arr items =>
          cases hm : mapExcept patchRecord items with
          | error e => simp [patch_missing_fields, hd2, hgd, hm] at h
          | ok newItems =>
            simp only [patch_missing_fields, hd2, hgd, hm] at h
            cases h
            have hlt : 2 < data.length := lt_of_get?_eq_some hd2
            have hd2' : (data.set 2 (.obj (setKey kvs "data" (.arr newItems))))[2]?
                = some (.obj (setKey kvs "data" (.arr newItems))) := get?_set_self hlt _
            have hpoint : ∀ y ∈ newItems, patchRecord y = .ok y := by
              intro y hy
              rcases List.getElem?_of_mem hy with ⟨i, hi⟩
              have hilen : i < items.length := by
                have h1 : i < newItems.length := lt_of_get?_eq_some hi
                rwa [mapExcept_length hm] at h1
              have hx : items[i]? = some (items[i]) := List.getElem?_eq_getElem hilen
              rcases mapExcept_get? hm i _ hx with ⟨y', hy', hf⟩
              rw [hi] at hy'
              cases hy'
              cases hxval : items[i] with
              | obj ikvs =>
                rw [hxval] at hf
                simp only [patchRecord] at hf
                cases hf
                simp only [patchRecord, pyDictMerge_idem default_data_sound]
              | str s => rw [hxval] at hf; simp [patchRecord] at hf
              | int n => rw [hxval] at hf; simp [patchRecord] at hf
              | bool b => rw [hxval] at hf; simp [patchRecord] at hf
              | arr xs => rw [hxval] at hf; simp [patchRecord] at hf
            simp only [patch_missing_fields, hd2', getVal_setKey_self,
              mapExcept_eq_self hpoint, setKey_setKey, List.set_set]
        | obj kvs2 =>
          by_cases he : kvs2.isEmpty
          · simp only [patch_missing_fields, hd2, hgd, he, ite_true] at h
            cases h
            simp only [patch_missing_fields, hd2, hgd, he, ite_true]
          · simp [patch_missing_fields, hd2, hgd, he] at h
        | str s =>
          by_cases he : s.isEmpty
          · simp only [patch_missing_fields, hd2, hgd, he, ite_true] at h
            cases h
            simp only [patch_missing_fields, hd2, hgd, he, ite_true]
          · simp [patch_missing_fields, hd2, hgd, he] at h
        | int n => simp [patch_missing_fields, hd2, hgd] at h
        | bool b => simp [patch_missing_fields, hd2, hgd] at h
    | str s => simp [patch_missing_fields, hd2] at h
    | int n => simp [patch_missing_fields, hd2] at h
    | bool b => simp [patch_missing_fields, hd2] at h
    | arr xs => simp [patch_missing_fields, hd2] at h

/-! ### Document-structure helpers -/

theorem docItems_eq_some {data : List JVal} {items : List JVal}
    (h : docItems data = some items) :
    ∃ kvs, data[2]? = some (JVal.obj kvs) ∧ getVal kvs "data" = some (.arr items) := by
  cases h2 : data[2]? with
  | none => simp [docItems, h2] at h
  | some v =>
    cases v with
    | obj kvs =>
      cases hgd : getVal kvs "data" with
      | none => simp [docItems, h2, hgd] at h
      | some internal =>
        cases internal with
        | arr xs =>
          simp only [docItems, h2, hgd] at h
          cases h
          exact ⟨kvs, rfl, hgd⟩
        | str s => simp [docItems, h2, hgd] at h
        | int n => simp [docItems, h2, hgd] at h
        | bool b => simp [docItems, h2, hgd] at h
        | obj kvs2 => simp [docItems, h2, hgd] at h
    | str s => simp [docItems, h2] at h
    | int n => simp [docItems, h2] at h
    | bool b => simp [docItems, h2] at h
    | arr xs => simp [docItems, h2] at h

theorem docItems_set {data : List JVal} {kvs : List (String × JVal)}
    (hd2 : data[2]? = some (JVal.obj kvs)) (newItems : List JVal) :
    docItems (data.set 2 (.obj (setKey kvs "data" (.arr newItems)))) = some newItems := by
  simp only [docItems, get?_set_self (lt_of_get?_eq_some hd2), getVal_setKey_self]

theorem clean_classes_ok_arr {data : List JVal} {vcs : List PyStr} {cpn : Bool}
    {data' : List JVal} {kvs : List (String × JVal)} {items : List JVal}
    (hd2 : data[2]? = some (JVal.obj kvs))
    (hgd : getVal kvs "data" = some (.arr items))
    (h : clean_classes data vcs cpn = .ok data') :
    ∃ newItems, mapExcept (cleanItem vcs cpn) items = .ok newItems
      ∧ data' = data.set 2 (.obj (setKey kvs "data" (.arr newItems))) := by
  simp only [clean_classes, hd2, hgd] at h
  cases hm : mapExcept (cleanItem vcs cpn) items with
  | error e => rw [hm] at h; cases h
  | ok newItems =>
    rw [hm] at h
    cases h
    exact ⟨newItems, rfl, rfl⟩

theorem patch_ok_arr {data : List JVal} {data' : List JVal}
    {kvs : List (String × JVal)} {items : List JVal}
    (hd2 : data[2]? = some (JVal.obj kvs))
    (hgd : getVal kvs "data" = some (.arr items))
    (h : patch_missing_fields data = .ok data') :
    ∃ newItems, mapExcept patchRecord items = .ok newItems
      ∧ data' = data.set 2 (.obj (setKey kvs "data" (.arr newItems))) := by
  simp only [patch_missing_fields, hd2, hgd] at h
  cases hm : mapExcept patchRecord items with
  | error e => rw [hm] at h; cases h
  | ok newItems =>
    rw [hm] at h
    cases h
    exact ⟨newItems, rfl, rfl⟩

/-! ### All-empty class lists (C10 machinery) -/

theorem dedup_const {l : List PyStr} {a : PyStr} :
    l ≠ [] → (∀ x ∈ l, x = a) → l.dedup = [a] := by
  induction l with
  | nil => intro h _; exact absurd rfl h
  | cons x rest ih =>
    intro _ h
    have hx : x = a := h x (List.mem_cons_self x rest)
    cases hr : rest with
    | nil =>
      subst hx
      simp [List.dedup]
    | cons y t =>
      have hrest : rest.dedup = [a] := by
        refine ih (by rw [hr]; simp) ?_
        intro z hz
        exact h z (List.mem_cons_of_mem x hz)
      have hy : y = a := h y (by rw [hr]; exact List.mem_cons_of_mem x (List.mem_cons_self y t))
      have hxr : x ∈ rest := by
        rw [hr]
        exact List.mem_cons.mpr (Or.inl (hx.trans hy.symm))
      rw [← hr, List.dedup_cons_of_mem hxr]
      exact hrest

theorem pyStartsWith_nil_iff (vc : PyStr) : pyStartsWith [] vc = true ↔ vc = [] := by
  cases vc with
  | nil => simp [pyStartsWith]
  | cons c t => simp [pyStartsWith]

theorem correctInner_no_match {c : PyStr} {st : List PyStr} :
    ∀ {l : List PyStr}, (∀ vc ∈ l, pyStartsWith c vc = false) →
      correctInner c st l = .ok st := by
  intro l
  induction l with
  | nil => intro _; rfl
  | cons vc rest ih =>
    intro h
    simp only [correctInner, h vc (List.mem_cons_self vc rest)]
    rw [if_neg (by simp [h vc (List.mem_cons_self vc rest)])]
    exact ih (fun vc' hvc' => h vc' (List.mem_cons_of_mem vc hvc'))

theorem finalize_single_empty (vcs : List PyStr) :
    finalize vcs (vcs.map lowerStr) [[]] = [] := by
  by_cases hmem : ([] : PyStr) ∈ vcs.map lowerStr
  · unfold finalize
    rw [dropInvalid_eq_self (by intro c hc; rw [List.mem_singleton.mp hc]; exact hmem)]
    have hsort : sortByValid (vcs.map lowerStr) [[]] = [[]] := rfl
    rw [hsort]
    unfold recase
    rw [List.map_singleton]
    have hr : vcs.getD (pyIndex (vcs.map lowerStr) []) [] ∈ vcs
        ∧ lowerStr (vcs.getD (pyIndex (vcs.map lowerStr) []) []) = [] := recase_elem hmem
    have hrnil : vcs.getD (pyIndex (vcs.map lowerStr) []) [] = [] := by
      have := hr.2
      unfold lowerStr at this
      exact List.map_eq_nil.mp this
    rw [hrnil]
    rfl
  · unfold finalize
    have hinv : invalidOf (vcs.map lowerStr) [[]] = [[]] := by
      unfold invalidOf
      rw [List.filter_singleton]
      simp [hmem]
    unfold dropInvalid
    rw [hinv]
    have hfil : ([[]] : List PyStr).filter (fun c => decide (c ∉ [([] : PyStr)])) = [] := by
      rw [List.filter_singleton]
      simp
    simp only [List.isEmpty_cons, hfil, ite_false]
    rfl

theorem normalize_all_empty {vcs : List PyStr} {cpn : Bool} {s out : PyStr}
    (hs : ∀ p ∈ splitComma s, pyStrip p = [])
    (h : normalizeClasses vcs cpn s = .ok out) : out = [] := by
  have hcl : ∀ x ∈ classListOf s, x = ([] : PyStr) := by
    intro x hx
    unfold classListOf at hx
    rcases List.mem_map.mp hx with ⟨t, ht, he⟩
    rcases List.mem_map.mp ht with ⟨p, hp, he2⟩
    rw [← he, ← he2, hs p hp]
    rfl
  have hclne : classListOf s ≠ [] := by
    unfold classListOf
    intro hnil
    rcases List.map_eq_nil.mp (List.map_eq_nil.mp hnil) with hnil2
    exact splitComma_ne_nil s hnil2
  have hded : (classListOf s).dedup = [[]] := dedup_const hclne hcl
  simp only [normalizeClasses, hded] at h
  by_cases hmem : ([] : PyStr) ∈ vcs.map lowerStr
  · have hinv : invalidOf (vcs.map lowerStr) [[]] = [] :=
      invalidOf_eq_nil_iff.mpr (by intro c hc; rw [List.mem_singleton.mp hc]; exact hmem)
    rw [hinv] at h
    simp only [List.isEmpty_nil, Bool.not_true, Bool.and_false, ite_false] at h
    cases h
    exact finalize_single_empty vcs
  · have hinv : invalidOf (vcs.map lowerStr) [[]] = [[]] := by
      unfold invalidOf
      rw [List.filter_singleton]
      simp [hmem]
    rw [hinv] at h
    cases cpn with
    | false =>
      simp only [Bool.false_and, ite_false] at h
      cases h
      exact finalize_single_empty vcs
    | true =>
      simp only [List.isEmpty_cons, Bool.not_false, Bool.and_true, ite_true] at h
      have hnostart : ∀ vc ∈ vcs.map lowerStr, pyStartsWith [] vc = false := by
        intro vc hvc
        cases hvcnil : vc with
        | nil => exact absurd (hvcnil ▸ hvc) hmem
        | cons c t => rfl
      have hca : correctAll (vcs.map lowerStr) [[]] [[]] = .ok [[]] := by
        simp only [correctAll, correctInner_no_match hnostart]
      rw [hca] at h
      cases h
      exact finalize_single_empty vcs

/-! ### Per-record success characterization of `cleanItem` -/

theorem cleanItem_ok_obj {vcs : List PyStr} {cpn : Bool}
    {kvs0 : List (String × JVal)} {y : JVal}
    (h : cleanItem vcs cpn (.obj kvs0) = .ok y) :
    (y = .obj kvs0 ∧ ∀ s, getVal kvs0 "classes" = some (.str s) → s = [])
    ∨ (∃ s out, getVal kvs0 "classes" = some (.str s) ∧ s ≠ []
        ∧ normalizeClasses vcs cpn s = .ok out
        ∧ y = .obj (setKey kvs0 "classes" (.str out))) := by
  cases hg : getVal kvs0 "classes" with
  | none =>
    simp only [cleanItem, hg] at h
    cases h
    refine Or.inl ⟨rfl, ?_⟩
    intro s hs
    cases hs
  | some v =>
    cases v with
    | str s0 =>
      by_cases hs : s0.isEmpty
      · simp only [cleanItem, hg, hs, ite_true] at h
        cases h
        refine Or.inl ⟨rfl, ?_⟩
        intro s hs2
        cases hs2
        exact List.isEmpty_iff.mp hs
      · simp only [cleanItem, hg, hs, ite_false] at h
        cases hnorm : normalizeClasses vcs cpn s0 with
        | error e => rw [hnorm] at h; cases h
        | ok out =>
          rw [hnorm] at h
          cases h
          refine Or.inr ⟨s0, out, rfl, ?_, hnorm, rfl⟩
          intro hnil
          rw [hnil] at hs
          exact hs rfl
    | int n =>
      simp only [cleanItem, hg] at h
      by_cases ht : (JVal.int n).truthy
      · rw [if_pos ht] at h; cases h
      · rw [if_neg ht] at h
        cases h
        refine Or.inl ⟨rfl, ?_⟩
        intro s hs
        simp at hs
    | bool b =>
      simp only [cleanItem, hg] at h
      by_cases ht : (JVal.bool b).truthy
      · rw [if_pos ht] at h; cases h
      · rw [if_neg ht] at h
        cases h
        refine Or.inl ⟨rfl, ?_⟩
        intro s hs
        simp at hs
    | arr xs =>
      simp only [cleanItem, hg] at h
      by_cases ht : (JVal.arr xs).truthy
      · rw [if_pos ht] at h; cases h
      · rw [if_neg ht] at h
        cases h
        refine Or.inl ⟨rfl, ?_⟩
        intro s hs
        simp at hs
    | obj kvs2 =>
      simp only [cleanItem, hg] at h
      by_cases ht : (JVal.obj kvs2).truthy
      · rw [if_pos ht] at h; cases h
      · rw [if_neg ht] at h
        cases h
        refine Or.inl ⟨rfl, ?_⟩
        intro s hs
        simp at hs

theorem cleanItem_ok_cases {vcs : List PyStr} {cpn : Bool} {x y : JVal}
    (h : cleanItem vcs cpn x = .ok y) : ∃ kvs0, x = .obj kvs0 := by
  cases x with
  | obj kvs0 => exact ⟨kvs0, rfl⟩
  | str s => simp [cleanItem] at h
  | int n => simp [cleanItem] at h
  | bool b => simp [cleanItem] at h
  | arr xs => simp [cleanItem] at h

/-- Extract the per-record relation between the input and output of a
successful `clean_classes` run on a well-shaped document. -/
theorem clean_classes_record_rel {data : List JVal} {vcs : List PyStr} {cpn : Bool}
    {data' : List JVal} {items : List JVal}
    (h : clean_classes data vcs cpn = .ok data')
    (hitems : docItems data = some items) :
    ∃ newItems, docItems data' = some newItems ∧ newItems.length = items.length
      ∧ ∀ (i : Nat) (x : JVal), items[i]? = some x →
          ∃ y, newItems[i]? = some y ∧ cleanItem vcs cpn x = .ok y := by
  rcases docItems_eq_some hitems with ⟨kvs, hd2, hgd⟩
  rcases clean_classes_ok_arr hd2 hgd h with ⟨newItems, hm, hdata'⟩
  refine ⟨newItems, ?_, mapExcept_length hm, ?_⟩
  · rw [hdata']
    exact docItems_set hd2 newItems
  · intro i x hx
    exact mapExcept_get? hm i x hx

/-! ### C5: output invariant of the Class Normalizer -/

/-- C5: after `clean_classes` completes, every class name remaining in any
record's `classes` field is a member of `valid_classes` with exact casing,
and the names appear in ascending `valid_classes` order (never
alphabetical or input order): any non-empty `classes` string in the result
document is the `', '`-join of such a list. -/
theorem clean_classes_output_invariant
    (data : List JVal) (vcs : List PyStr) (cpn : Bool) (data' : List JVal)
    (h : clean_classes data vcs cpn = .ok data')
    (items' : List JVal) (hitems : docItems data' = some items')
    (i : Nat) (ikvs : List (String × JVal))
    (hrec : items'[i]? = some (JVal.obj ikvs))
    (s : PyStr) (hcls : getVal ikvs "classes" = some (.str s)) (hne : s ≠ []) :
    ∃ xs, s = joinCS xs ∧ (∀ x ∈ xs, x ∈ vcs)
      ∧ OrderedByValid (vcs.map lowerStr) xs := by
  rcases docItems_eq_some hitems with ⟨kvs', hd2', hgd'⟩
  -- run structure: data' must come from the list branch of clean_classes
  cases hd2 : data[2]? with
  | none => simp [clean_classes, hd2] at h
  | some v =>
    cases v with
    | obj kvs =>
      cases hgd : getVal kvs "data" with
      | none => simp [clean_classes, hd2, hgd] at h
      | some internal =>
        cases internal with
        | arr items =>
          rcases clean_classes_ok_arr hd2 hgd h with ⟨newItems, hm, hdata'⟩
          have hitems2 : docItems data' = some newItems := by
            rw [hdata']
            exact docItems_set hd2 newItems
          rw [hitems] at hitems2
          cases hitems2
          -- the record at index i
          have hilen : i < items.length := by
            have h1 : i < items'.length := lt_of_get?_eq_some hrec
            rwa [mapExcept_length hm] at h1
          have hx : items[i]? = some (items[i]) := List.getElem?_eq_getElem hilen
          rcases mapExcept_get? hm i _ hx with ⟨y, hy, hf⟩
          rw [hrec] at hy
          cases hy
          rcases cleanItem_ok_cases hf with ⟨kvs0, hx0⟩
          rw [hx0] at hf
          rcases cleanItem_ok_obj hf with ⟨hyeq, hcempty⟩ | ⟨s0, out, hg0, hs0, hnorm, hyeq⟩
          · cases hyeq
            exact absurd (hcempty s hcls) hne
          · cases hyeq
            rw [getVal_setKey_self] at hcls
            cases hcls
            rcases normalizeClasses_ok_shape hnorm with ⟨u, hnd, _, hout⟩
            have hfe : ∃ xs, finalize vcs (vcs.map lowerStr) u = joinCS xs
                ∧ (∀ x ∈ xs, x ∈ vcs) ∧ OrderedByValid (vcs.map lowerStr) xs :=
              finalize_exists hnd
            rcases hfe with ⟨xs, hfin, hmem, hord⟩
            exact ⟨xs, by rw [hout, hfin], hmem, hord⟩
        | obj kvs2 =>
          by_cases he : kvs2.isEmpty
          · simp only [clean_classes, hd2, hgd, he, ite_true] at h
            cases h
            rw [hd2] at hd2'
            cases hd2'
            rw [hgd] at hgd'
            cases hgd'
          · simp [clean_classes, hd2, hgd, he] at h
        | str sx =>
          by_cases he : sx.isEmpty
          · simp only [clean_classes, hd2, hgd, he, ite_true] at h
            cases h
            rw [hd2] at hd2'
            cases hd2'
            rw [hgd] at hgd'
            cases hgd'
          · simp [clean_classes, hd2, hgd, he] at h
        | int n => simp [clean_classes, hd2, hgd] at h
        | bool b => simp [clean_classes, hd2, hgd] at h
    | str sx => simp [clean_classes, hd2] at h
    | int n => simp [clean_classes, hd2] at h
    | bool b => simp [clean_classes, hd2] at h
    | arr xs => simp [clean_classes, hd2] at h

/-! ### C10: empty comma-separated parts are dropped -/

/-- C10: for every record whose `classes` field is a non-empty string all
of whose comma-separated parts strip to the empty string (whitespace-only
strings, stray commas), `clean_classes` treats each empty part as an
invalid class name and drops it: the record's `classes` field is rewritten
to the empty string `""` rather than left untouched. -/
theorem clean_classes_empty_parts_dropped
    (data : List JVal) (vcs : List PyStr) (cpn : Bool) (data' : List JVal)
    (h : clean_classes data vcs cpn = .ok data')
    (items : List JVal) (hitems : docItems data = some items)
    (i : Nat) (ikvs : List (String × JVal))
    (hrec : items[i]? = some (JVal.obj ikvs))
    (s : PyStr) (hcls : getVal ikvs "classes" = some (.str s)) (hne : s ≠ [])
    (hparts : ∀ p ∈ splitComma s, pyStrip p = []) :
    ∃ items', docItems data' = some items'
      ∧ ∃ ikvs', items'[i]? = some (JVal.obj ikvs')
          ∧ getVal ikvs' "classes" = some (.str []) := by
  rcases clean_classes_record_rel h hitems with ⟨newItems, hitems', hlen, hrel⟩
  rcases hrel i _ hrec with ⟨y, hy, hf⟩
  rcases cleanItem_ok_obj hf with ⟨hyeq, hcempty⟩ | ⟨s0, out, hg0, hs0, hnorm, hyeq⟩
  · exact absurd (hcempty s hcls) hne
  · rw [hcls] at hg0
    cases hg0
    have hout : out = [] := normalize_all_empty hparts hnorm
    refine ⟨newItems, hitems', setKey ikvs "classes" (.str out), ?_, ?_⟩
    · rw [hy, hyeq]
    · rw [getVal_setKey_self, hout]

/-! ### Validator loop lemmas -/

theorem pyHasKey_obj (k : String) (kvs : List (String × JVal)) :
    pyHasKey k (.obj kvs) = .ok (hasKeyB (.obj kvs) k) := rfl

theorem checkItemKeys_obj_ok {kvs : List (String × JVal)} :
    ∀ {ks : List String}, (∀ k ∈ ks, hasKeyB (.obj kvs) k = true) →
      checkItemKeys (.obj kvs) ks = .ok () := by
  intro ks
  induction ks with
  | nil => intro _; rfl
  | cons k rest ih =>
    intro h
    simp only [checkItemKeys, pyHasKey_obj, h k (List.mem_cons_self k rest)]
    exact ih (fun k' hk' => h k' (List.mem_cons_of_mem k hk'))

theorem checkItemKeys_obj_err {kvs : List (String × JVal)} {k : String} :
    ∀ {ks : List String}, ks.find? (fun k' => !hasKeyB (.obj kvs) k') = some k →
      checkItemKeys (.obj kvs) ks = .error (.missingField k (.obj kvs)) := by
  intro ks
  induction ks with
  | nil => intro h; simp at h
  | cons k0 rest ih =>
    intro h
    by_cases hk0 : hasKeyB (.obj kvs) k0
    · rw [List.find?_cons_of_neg _ (by simp [hk0])] at h
      simp only [checkItemKeys, pyHasKey_obj, hk0]
      exact ih h
    · rw [List.find?_cons_of_pos _ (by simp [hk0])] at h
      cases h
      simp only [checkItemKeys, pyHasKey_obj]
      rw [show hasKeyB (.obj kvs) k = false from by simpa using hk0]

theorem checkItems_all_ok :
    ∀ {items : List JVal}, (∀ item ∈ items, checkItemKeys item defaultKeys = .ok ()) →
      checkItems items = .ok () := by
  intro items
  induction items with
  | nil => intro _; rfl
  | cons item rest ih =>
    intro h
    simp only [checkItems, h item (List.mem_cons_self item rest)]
    exact ih (fun it hit => h it (List.mem_cons_of_mem item hit))

theorem checkItems_err_at {e : PyError} :
    ∀ {items : List JVal} {i : Nat} {item : JVal}, items[i]? = some item →
      (∀ (j : Nat) (item' : JVal), j < i → items[j]? = some item' →
        checkItemKeys item' defaultKeys = .ok ()) →
      checkItemKeys item defaultKeys = .error e →
      checkItems items = .error e := by
  intro items
  induction items with
  | nil => intro i item hi _ _; simp at hi
  | cons a rest ih =>
    intro i item hi hbefore herr
    cases i with
    | zero =>
      simp only [List.getElem?_cons_zero, Option.some.injEq] at hi
      subst hi
      simp only [checkItems, herr]
    | succ j =>
      simp only [List.getElem?_cons_succ] at hi
      have ha : checkItemKeys a defaultKeys = .ok () :=
        hbefore 0 a (Nat.succ_pos j) (by simp)
      simp only [checkItems, ha]
      refine ih hi ?_ herr
      intro j' item' hj' hj'get
      exact hbefore (j' + 1) item' (Nat.succ_lt_succ hj') (by simpa using hj'get)

theorem validate_data_ok_shape {data : List JVal} {kvs : List (String × JVal)}
    {items : List JVal}
    (hd2 : data[2]? = some (JVal.obj kvs))
    (hgd : getVal kvs "data" = some (.arr items)) :
    validate_data data = checkItems items := by
  have hlt : 2 < data.length := lt_of_get?_eq_some hd2
  have hnotlt : ¬data.length < 3 := by omega
  have hhk : pyHasKey "data" (.obj kvs) = .ok true := by
    rw [pyHasKey_obj]
    simp only [hasKeyB, hgd]
    rfl
  simp only [validate_data, hnotlt, ite_false, hd2, hhk, pySubscript, hgd, pyIterate]

/-! ### C6: validation completeness -/

/-- C6: on a document whose element 2 is a mapping holding the record list
under `"data"`, with every record a mapping: `validate_data` succeeds when
every record contains the full canonical field set (extra fields allowed,
values unchecked), and fails with the `InvalidDataError` naming the first
offending record/field pair (in iteration order: records in order, fields
in `_default_data` order) when some record is missing a canonical field. -/
theorem validate_data_completeness
    (data : List JVal) (items : List JVal) (hitems : docItems data = some items)
    (hobj : ∀ item ∈ items, item.isObj = true) :
    ((∀ item ∈ items, ∀ k ∈ defaultKeys, hasKeyB item k = true) →
      validate_data data = .ok ())
    ∧ (∀ (i : Nat) (item : JVal), items[i]? = some item →
        (∃ k ∈ defaultKeys, hasKeyB item k = false) →
        (∀ (j : Nat) (item' : JVal), j < i → items[j]? = some item' →
          ∀ k ∈ defaultKeys, hasKeyB item' k = true) →
        ∃ k, defaultKeys.find? (fun k' => !hasKeyB item k') = some k
          ∧ validate_data data = .error (.missingField k item)) := by
  rcases docItems_eq_some hitems with ⟨kvs, hd2, hgd⟩
  rw [validate_data_ok_shape hd2 hgd]
  constructor
  · intro h
    refine checkItems_all_ok ?_
    intro item hitem
    rcases hobj item hitem with hisobj
    cases item with
    | obj ikvs => exact checkItemKeys_obj_ok (h (.obj ikvs) hitem)
    | str s => simp [JVal.isObj] at hisobj
    | int n => simp [JVal.isObj] at hisobj
    | bool b => simp [JVal.isObj] at hisobj
    | arr xs => simp [JVal.isObj] at hisobj
  · intro i item hi hmiss hbefore
    have hitem : item ∈ items := List.mem_iff_getElem?.mpr ⟨i, hi⟩
    have hisobj := hobj item hitem
    cases item with
    | obj ikvs =>
      have hfind : ∃ k, defaultKeys.find? (fun k' => !hasKeyB (.obj ikvs) k') = some k := by
        rcases hmiss with ⟨k, hkmem, hkfalse⟩
        have hp : (fun k' => !hasKeyB (.obj ikvs) k') k = true := by simp [hkfalse]
        have hsome : (defaultKeys.find? (fun k' => !hasKeyB (.obj ikvs) k')).isSome = true :=
          List.find?_isSome.mpr ⟨k, hkmem, hp⟩
        cases hfk : defaultKeys.find? (fun k' => !hasKeyB (.obj ikvs) k') with
        | none => rw [hfk] at hsome; cases hsome
        | some k' => exact ⟨k', rfl⟩
      rcases hfind with ⟨k, hfk⟩
      refine ⟨k, hfk, ?_⟩
      refine checkItems_err_at hi ?_ (checkItemKeys_obj_err hfk)
      intro j item' hj hjget
      have hitem' : item' ∈ items := List.mem_iff_getElem?.mpr ⟨j, hjget⟩
      have hisobj' := hobj item' hitem'
      cases item' with
      | obj ikvs' => exact checkItemKeys_obj_ok (hbefore j (.obj ikvs') hj hjget)
      | str s => simp [JVal.isObj] at hisobj'
      | int n => simp [JVal.isObj] at hisobj'
      | bool b => simp [JVal.isObj] at hisobj'
      | arr xs => simp [JVal.isObj] at hisobj'
    | str s => simp [JVal.isObj] at hisobj
    | int n => simp [JVal.isObj] at hisobj
    | bool b => simp [JVal.isObj] at hisobj
    | arr xs => simp [JVal.isObj] at hisobj

/-! ### Merge frame lemmas -/

theorem getVal_merge_present {d i : List (String × JVal)} {k : String} {v : JVal}
    (h : getVal i k = some v) : getVal (pyDictMerge d i) k = some v := by
  unfold pyDictMerge
  rw [getVal_append, getVal_mergePart1]
  cases hd : getVal d k with
  | some dv => rw [h]
  | none =>
    rw [getVal_filter_keep ?_]
    · exact h
    · intro p hp
      rw [hp, hd]
      rfl

theorem getVal_merge_absent {d i : List (String × JVal)} {k : String}
    (h : getVal i k = none) : getVal (pyDictMerge d i) k = getVal d k := by
  unfold pyDictMerge
  rw [getVal_append, getVal_mergePart1]
  cases hd : getVal d k with
  | some dv => rw [h]
  | none =>
    rw [getVal_filter_keep ?_]
    · exact h
    · intro p hp
      rw [hp, hd]
      rfl

/-! ### C9: frame conditions -/

/-- The Patcher's frame: record count and order preserved, elements other
than index 2 untouched, sibling keys at index 2 untouched, and per record
every present field keeps its value while every absent field receives
exactly the `_default_data` content for that key. -/
def PatchFrame (data data' : List JVal) : Prop :=
  data'.length = data.length
  ∧ (∀ i : Nat, i ≠ 2 → data'[i]? = data[i]?)
  ∧ ∀ kvs, data[2]? = some (JVal.obj kvs) →
      ∃ kvs', data'[2]? = some (JVal.obj kvs')
        ∧ (∀ k, k ≠ "data" → getVal kvs' k = getVal kvs k)
        ∧ ∀ items, getVal kvs "data" = some (.arr items) →
            ∃ items', getVal kvs' "data" = some (.arr items')
              ∧ items'.length = items.length
              ∧ ∀ (i : Nat) (ikvs : List (String × JVal)),
                  items[i]? = some (.obj ikvs) →
                  ∃ ikvs', items'[i]? = some (JVal.obj ikvs')
                    ∧ (∀ k v, getVal ikvs k = some v → getVal ikvs' k = some v)
                    ∧ (∀ k, getVal ikvs k = none →
                        getVal ikvs' k = getVal _default_data k)

/-- The Normalizer's frame: like the Patcher's, but each record is changed
at most in its `classes` field. -/
def CleanFrame (data data' : List JVal) : Prop :=
  data'.length = data.length
  ∧ (∀ i : Nat, i ≠ 2 → data'[i]? = data[i]?)
  ∧ ∀ kvs, data[2]? = some (JVal.obj kvs) →
      ∃ kvs', data'[2]? = some (JVal.obj kvs')
        ∧ (∀ k, k ≠ "data" → getVal kvs' k = getVal kvs k)
        ∧ ∀ items, getVal kvs "data" = some (.arr items) →
            ∃ items', getVal kvs' "data" = some (.arr items')
              ∧ items'.length = items.length
              ∧ ∀ (i : Nat) (ikvs : List (String × JVal)),
                  items[i]? = some (.obj ikvs) →
                  ∃ ikvs', items'[i]? = some (JVal.obj ikvs')
                    ∧ ∀ k, k ≠ "classes" → getVal ikvs' k = getVal ikvs k

/-- C9: the Validator leaves the document entirely unchanged (the
`validate` branch of the CLI passes the document through untouched), and
the Patcher and the Normalizer preserve record count and order and change
no fields other than the ones they own — the Patcher writes only fields
missing from a record, the Normalizer writes only the `classes` field;
elements 0 and 1 and sibling keys at element 2 pass through unchanged. -/
theorem operations_frame_conditions :
    (∀ data data', run_validate data = .ok data' → data' = data)
    ∧ (∀ data data', patch_missing_fields data = .ok data' → PatchFrame data data')
    ∧ (∀ data vcs cpn data', clean_classes data vcs cpn = .ok data' →
        CleanFrame data data') := by
  refine ⟨?_, ?_, ?_⟩
  · intro data data' h
    unfold run_validate at h
    cases hv : validate_data data with
    | error e => rw [hv] at h; cases h
    | ok u =>
      rw [hv] at h
      cases h
      rfl
  · intro data data' h
    cases hd2 : data[2]? with
    | none => simp [patch_missing_fields, hd2] at h
    | some v =>
      cases v with
      | obj kvs =>
        cases hgd : getVal kvs "data" with
        | none => simp [patch_missing_fields, hd2, hgd] at h
        | some internal =>
          have hlt : 2 < data.length := lt_of_get?_eq_some hd2
          cases internal with
          | arr items =>
            rcases patch_ok_arr hd2 hgd h with ⟨newItems, hm, hdata'⟩
            subst hdata'
            refine ⟨by simp, fun i hi => get?_set_ne (fun he => hi he.symm) _, ?_⟩
            intro kvs2 hkvs2
            rw [hd2] at hkvs2
            cases hkvs2
            refine ⟨setKey kvs "data" (.arr newItems), get?_set_self hlt _,
              fun k hk => getVal_setKey_ne hk _ _, ?_⟩
            intro items2 hitems2
            rw [hgd] at hitems2
            cases hitems2
            refine ⟨newItems, getVal_setKey_self _ _ _, mapExcept_length hm, ?_⟩
            intro i ikvs hrec
            rcases mapExcept_get? hm i _ hrec with ⟨y, hy, hf⟩
            simp only [patchRecord] at hf
            cases hf
            exact ⟨pyDictMerge _default_data ikvs, hy,
              fun k v hv => getVal_merge_present hv,
              fun k hv => getVal_merge_absent hv⟩
          | obj kvs2 =>
            by_cases he : kvs2.isEmpty
            · simp only [patch_missing_fields, hd2, hgd, he, ite_true] at h
              cases h
              refine ⟨rfl, fun i _ => rfl, ?_⟩
              intro kvs3 hkvs3
              rw [hd2] at hkvs3
              cases hkvs3
              refine ⟨kvs, hd2, fun k _ => rfl, ?_⟩
              intro items2 hitems2
              rw [hgd] at hitems2
              cases hitems2
            · simp [patch_missing_fields, hd2, hgd, he] at h
          | str s =>
            by_cases he : s.isEmpty
            · simp only [patch_missing_fields, hd2, hgd, he, ite_true] at h
              cases h
              refine ⟨rfl, fun i _ => rfl, ?_⟩
              intro kvs3 hkvs3
              rw [hd2] at hkvs3
              cases hkvs3
              refine ⟨kvs, hd2, fun k _ => rfl, ?_⟩
              intro items2 hitems2
              rw [hgd] at hitems2
              cases hitems2
            · simp [patch_missing_fields, hd2, hgd, he] at h
          | int n => simp [patch_missing_fields, hd2, hgd] at h
          | bool b => simp [patch_missing_fields, hd2, hgd] at h
      | str s => simp [patch_missing_fields, hd2] at h
      | int n => simp [patch_missing_fields, hd2] at h
      | bool b => simp [patch_missing_fields, hd2] at h
      | arr xs => simp [patch_missing_fields, hd2] at h
  · intro data vcs cpn data' h
    cases hd2 : data[2]? with
    | none => simp [clean_classes, hd2] at h
    | some v =>
      cases v with
      | obj kvs =>
        cases hgd : getVal kvs "data" with
        | none => simp [clean_classes, hd2, hgd] at h
        | some internal =>
          have hlt : 2 < data.length := lt_of_get?_eq_some hd2
          cases internal with
          | arr items =>
            rcases clean_classes_ok_arr hd2 hgd h with ⟨newItems, hm, hdata'⟩
            subst hdata'
            refine ⟨by simp, fun i hi => get?_set_ne (fun he => hi he.symm) _, ?_⟩
            intro kvs2 hkvs2
            rw [hd2] at hkvs2
            cases hkvs2
            refine ⟨setKey kvs "data" (.arr newItems), get?_set_self hlt _,
              fun k hk => getVal_setKey_ne hk _ _, ?_⟩
            intro items2 hitems2
            rw [hgd] at hitems2
            cases hitems2
            refine ⟨newItems, getVal_setKey_self _ _ _, mapExcept_length hm, ?_⟩
            intro i ikvs hrec
            rcases mapExcept_get? hm i _ hrec with ⟨y, hy, hf⟩
            rcases cleanItem_ok_obj hf with ⟨hyeq, _⟩ | ⟨s0, out, _, _, _, hyeq⟩
            · subst hyeq
              exact ⟨ikvs, hy, fun k _ => rfl⟩
            · subst hyeq
              exact ⟨setKey ikvs "classes" (.str out), hy,
                fun k hk => getVal_setKey_ne hk _ _⟩
          | obj kvs2 =>
            by_cases he : kvs2.isEmpty
            · simp only [clean_classes, hd2, hgd, he, ite_true] at h
              cases h
              refine ⟨rfl, fun i _ => rfl, ?_⟩
              intro kvs3 hkvs3
              rw [hd2] at hkvs3
              cases hkvs3
              refine ⟨kvs, hd2, fun k _ => rfl, ?_⟩
              intro items2 hitems2
              rw [hgd] at hitems2
              cases hitems2
            · simp [clean_classes, hd2, hgd, he] at h
          | str s =>
            by_cases he : s.isEmpty
            · simp only [clean_classes, hd2, hgd, he, ite_true] at h
              cases h
              refine ⟨rfl, fun i _ => rfl, ?_⟩
              intro kvs3 hkvs3
              rw [hd2] at hkvs3
              cases hkvs3
              refine ⟨kvs, hd2, fun k _ => rfl, ?_⟩
              intro items2 hitems2
              rw [hgd] at hitems2
              cases hitems2
            · simp [clean_classes, hd2, hgd, he] at h
          | int n => simp [clean_classes, hd2, hgd] at h
          | bool b => simp [clean_classes, hd2, hgd] at h
      | str s => simp [clean_classes, hd2] at h
      | int n => simp [clean_classes, hd2] at h
      | bool b => simp [clean_classes, hd2] at h
      | arr xs => simp [clean_classes, hd2] at h

/-! ### C4: Patcher failure on structurally invalid documents -/

/-- C4 (amended): the Patcher fails on every structurally invalid
document — `IndexError` when there are fewer than 3 top-level elements,
`KeyError` when element 2 is a mapping without `"data"`, `TypeError` when
element 2 is not a mapping, and an error on any non-mapping record.  In
the first three cases the Validator fails on the same document too, but
the exceptions are Python built-ins rather than the Validator's
`InvalidDataError`, and a non-mapping record can pass validation while
still failing the Patcher. -/
theorem patcher_fails_on_invalid_shape : ∀ data : List JVal,
    (data.length < 3 →
      patch_missing_fields data = .error .indexError
        ∧ ∃ e, validate_data data = .error e)
    ∧ (∀ kvs, data[2]? = some (JVal.obj kvs) → getVal kvs "data" = none →
        patch_missing_fields data = .error .keyError
          ∧ ∃ e, validate_data data = .error e)
    ∧ (∀ v, data[2]? = some v → v.isObj = false →
        patch_missing_fields data = .error .typeError
          ∧ ∃ e, validate_data data = .error e)
    ∧ (∀ items (i : Nat) item, docItems data = some items → items[i]? = some item →
        item.isObj = false → ∃ e, patch_missing_fields data = .error e) := by
  intro data
  refine ⟨?_, ?_, ?_, ?_⟩
  · intro hlen
    have hd2 : data[2]? = none := List.getElem?_eq_none (by omega)
    constructor
    · simp only [patch_missing_fields, hd2]
    · exact ⟨.invalidData "Expected data to contain at least three entries",
        by simp only [validate_data, if_pos hlen]⟩
  · intro kvs hd2 hgd
    have hlt : 2 < data.length := lt_of_get?_eq_some hd2
    have hnotlt : ¬data.length < 3 := by omega
    constructor
    · simp only [patch_missing_fields, hd2, hgd]
    · refine ⟨.invalidData "Expected dictionary with \"data\" key at index 2 in input data", ?_⟩
      have hhk : pyHasKey "data" (.obj kvs) = .ok false := by
        rw [pyHasKey_obj]
        simp only [hasKeyB, hgd]
        rfl
      simp only [validate_data, hnotlt, ite_false, hd2, hhk]
  · intro v hd2 hno
    have hlt : 2 < data.length := lt_of_get?_eq_some hd2
    have hnotlt : ¬data.length < 3 := by omega
    cases v with
    | obj kvs => simp [JVal.isObj] at hno
    | arr xs =>
      refine ⟨by simp only [patch_missing_fields, hd2], ?_⟩
      cases hb : xs.any (fun w => JVal.beq w (.str "data".toList)) with
      | false =>
        refine ⟨.invalidData "Expected dictionary with \"data\" key at index 2 in input data", ?_⟩
        simp only [validate_data, hnotlt, ite_false, hd2, pyHasKey, hb]
      | true =>
        refine ⟨.typeError, ?_⟩
        simp only [validate_data, hnotlt, ite_false, hd2, pyHasKey, hb, pySubscript]
    | str s =>
      refine ⟨by simp only [patch_missing_fields, hd2], ?_⟩
      cases hb : pyInStr "data".toList s with
      | false =>
        refine ⟨.invalidData "Expected dictionary with \"data\" key at index 2 in input data", ?_⟩
        simp only [validate_data, hnotlt, ite_false, hd2, pyHasKey, hb]
      | true =>
        refine ⟨.typeError, ?_⟩
        simp only [validate_data, hnotlt, ite_false, hd2, pyHasKey, hb, pySubscript]
    | int n =>
      refine ⟨by simp only [patch_missing_fields, hd2], .typeError, ?_⟩
      simp only [validate_data, hnotlt, ite_false, hd2, pyHasKey]
    | bool b =>
      refine ⟨by simp only [patch_missing_fields, hd2], .typeError, ?_⟩
      simp only [validate_data, hnotlt, ite_false, hd2, pyHasKey]
  · intro items i item hitems hi hno
    rcases docItems_eq_some hitems with ⟨kvs, hd2, hgd⟩
    have hitem : item ∈ items := List.mem_iff_getElem?.mpr ⟨i, hi⟩
    have herr : patchRecord item = .error .typeError := by
      cases item with
      | obj kvs0 => simp [JVal.isObj] at hno
      | str s => rfl
      | int n => rfl
      | bool b => rfl
      | arr xs => rfl
    rcases mapExcept_error_of_mem hitem herr with ⟨e, he⟩
    refine ⟨e, ?_⟩
    simp only [patch_missing_fields, hd2, hgd, he]

/-! ### Concrete documents for counterexamples and witnesses -/

/-- A document whose single record is the spec's Scenario 2 input:
`classes = "Wiz"`. -/
def C1doc : List JVal :=
  [.int 0, .int 0,
   .obj [("data", .arr [.obj [("name", .str "spell-one".toList),
                              ("classes", .str "Wiz".toList)]])]]

/-- Like `C1doc`, with `classes = "Wizardly"` (a valid name extended by a
suffix). -/
def C1doc' : List JVal :=
  [.int 0, .int 0,
   .obj [("data", .arr [.obj [("name", .str "spell-one".toList),
                              ("classes", .str "Wizardly".toList)]])]]

/-- A record whose unrecognized class name has two valid prefixes. -/
def C2doc : List JVal :=
  [.int 0, .int 0,
   .obj [("data", .arr [.obj [("name", .str "spell-two".toList),
                              ("classes", .str "Wizardly".toList)]])]]

/-- Same shape as `C2doc` with a different record, for the scan-order
analysis. -/
def C3doc : List JVal :=
  [.int 0, .int 0,
   .obj [("data", .arr [.obj [("name", .str "spell-three".toList),
                              ("classes", .str "Wizardly".toList)]])]]

/-- A non-mapping record: the list of all 17 canonical field names.  The
Validator's `key not in item` membership test succeeds on it for every
canonical key, while `dict(**item)` raises `TypeError`. -/
def arrRecord : JVal := .arr (defaultKeys.map (fun k => .str k.toList))

/-- A structurally invalid document (non-mapping record) that the
Validator nevertheless accepts. -/
def C4doc : List JVal := [.int 0, .int 0, .obj [("data", .arr [arrRecord])]]

/-- Scenario-1 document: `classes = "Wizard, wizard, Cleric"`, plus a
sibling key at element 2 and opaque elements 0 and 1. -/
def SDoc : List JVal :=
  [.int 0, .int 0,
   .obj [("data", .arr [.obj [("name", .str "s1".toList),
                              ("classes", .str "Wizard, wizard, Cleric".toList)]]),
         ("version", .int 7)]]

/-- The result of normalizing `SDoc` against `["Cleric", "Wizard"]`. -/
def SDocClean : List JVal :=
  [.int 0, .int 0,
   .obj [("data", .arr [.obj [("name", .str "s1".toList),
                              ("classes", .str "Cleric, Wizard".toList)]]),
         ("version", .int 7)]]

/-- A record missing every canonical field except `name`. -/
def PDoc : List JVal :=
  [.int 0, .int 0, .obj [("data", .arr [.obj [("name", .str "abc".toList)]])]]

/-- The result of patching `PDoc`. -/
def PDocPatched : List JVal :=
  [.int 0, .int 0,
   .obj [("data", .arr [.obj (pyDictMerge _default_data [("name", .str "abc".toList)])])]]

/-- A document whose records all carry the full canonical field set. -/
def VDocGood : List JVal :=
  [.int 0, .int 0, .obj [("data", .arr [.obj _default_data])]]

/-- A document whose single record carries only `name`. -/
def VDocBad : List JVal :=
  [.int 0, .int 0, .obj [("data", .arr [.obj [("name", .str "x".toList)]])]]

/-- A record whose `classes` string holds only whitespace and a comma. -/
def WDoc : List JVal :=
  [.int 0, .int 0, .obj [("data", .arr [.obj [("classes", .str "  , ".toList)]])]]

/-- The result of normalizing `WDoc`: the whitespace-and-comma `classes`
string is rewritten to the empty string. -/
def WDocClean : List JVal :=
  [.int 0, .int 0, .obj [("data", .arr [.obj [("classes", .str [])]])]]

/-! ### C1, C2, C3: partial-name correction behavior -/

/-- C1 (counterexample): with `classes = "Wiz"`, `valid_classes =
["Wizard"]` and `correct_partial_names` enabled, `clean_classes` does not
set the field to `"Wizard"`: the correction tests `c.startswith(vc)`, and
`"wiz"` does not start with `"wizard"`, so `"Wiz"` is dropped and the
field becomes `""`. -/
theorem clean_classes_wiz_dropped_not_corrected :
    clean_classes C1doc ["Wizard".toList] true
      = .ok [.int 0, .int 0,
             .obj [("data", .arr [.obj [("name", .str "spell-one".toList),
                                        ("classes", .str [])]])]]
    ∧ ([] : PyStr) ≠ "Wizard".toList :=
  ⟨rfl, by decide⟩

/-- C1 (amended): when partial-name correction is enabled, an unrecognized
class name that *starts with* a valid class name is corrected to it
(`classes = "Wizardly"` with `valid_classes = ["Wizard"]` becomes
`"Wizard"`), while a mere prefix of a valid name such as `"Wiz"` is
dropped, leaving `""`. -/
theorem clean_classes_partial_correction_direction :
    clean_classes C1doc' ["Wizard".toList] true
      = .ok [.int 0, .int 0,
             .obj [("data", .arr [.obj [("name", .str "spell-one".toList),
                                        ("classes", .str "Wizard".toList)]])]]
    ∧ clean_classes C1doc ["Wizard".toList] true
      = .ok [.int 0, .int 0,
             .obj [("data", .arr [.obj [("name", .str "spell-one".toList),
                                        ("classes", .str [])]])]] :=
  ⟨rfl, rfl⟩

/-- C2: `clean_classes` can raise.  With `classes = "Wizardly"` and
`valid_classes = ["Wiz", "Wizard"]` under `correct_partial_names`, both
valid names are prefixes of the invalid entry; the correction loop has no
`break`, so the second match calls `unique_classes.remove` on an element
already removed and Python raises `KeyError` instead of completing. -/
theorem clean_classes_double_prefix_keyerror :
    clean_classes C2doc ["Wiz".toList, "Wizard".toList] true = .error .keyError := rfl

/-- C3: the correction loop does not stop at the first matching valid
name.  If scanning stopped after the first prefix match, either ordering
of `["Wiz", "Wizard"]` would complete (yielding the first-listed match);
instead both orderings crash with `KeyError` on the second match. -/
theorem clean_classes_correction_does_not_stop :
    clean_classes C3doc ["Wiz".toList, "Wizard".toList] true = .error .keyError
    ∧ clean_classes C3doc ["Wizard".toList, "Wiz".toList] true = .error .keyError :=
  ⟨rfl, rfl⟩

/-- C4 (counterexample): a structurally invalid document (its record is a
list, not a mapping) on which the Validator succeeds while the Patcher
raises `TypeError` — the Patcher does not fail "with the same conditions
the Validator would raise". -/
theorem patcher_validator_divergence :
    validate_data C4doc = .ok ()
    ∧ patch_missing_fields C4doc = .error .typeError
    ∧ arrRecord.isObj = false :=
  ⟨rfl, rfl, rfl⟩

/-! ### Witnesses -/

theorem patcher_fails_on_invalid_shape_witness :
    (patch_missing_fields [] = .error .indexError ∧ ∃ e, validate_data [] = .error e)
    ∧ (patch_missing_fields [.int 0, .int 0, .obj []] = .error .keyError
        ∧ ∃ e, validate_data [.int 0, .int 0, .obj []] = .error e)
    ∧ (patch_missing_fields [.int 0, .int 0, .int 5] = .error .typeError
        ∧ ∃ e, validate_data [.int 0, .int 0, .int 5] = .error e)
    ∧ (∃ e, patch_missing_fields C4doc = .error e) :=
  ⟨(patcher_fails_on_invalid_shape []).1 (by decide),
   (patcher_fails_on_invalid_shape [.int 0, .int 0, .obj []]).2.1 [] rfl rfl,
   (patcher_fails_on_invalid_shape [.int 0, .int 0, .int 5]).2.2.1 (.int 5) rfl rfl,
   (patcher_fails_on_invalid_shape C4doc).2.2.2 [arrRecord] 0 arrRecord rfl rfl rfl⟩

theorem clean_classes_output_invariant_witness :
    ∃ xs, "Cleric, Wizard".toList = joinCS xs
      ∧ (∀ x ∈ xs, x ∈ ["Cleric".toList, "Wizard".toList])
      ∧ OrderedByValid (["Cleric".toList, "Wizard".toList].map lowerStr) xs :=
  clean_classes_output_invariant SDoc ["Cleric".toList, "Wizard".toList] false SDocClean rfl
    [.obj [("name", .str "s1".toList), ("classes", .str "Cleric, Wizard".toList)]] rfl
    0 [("name", .str "s1".toList), ("classes", .str "Cleric, Wizard".toList)] rfl
    ("Cleric, Wizard".toList) rfl (by decide)

theorem validate_data_completeness_witness :
    validate_data VDocGood = .ok ()
    ∧ ∃ k, defaultKeys.find?
          (fun k' => !hasKeyB (.obj [("name", .str "x".toList)]) k') = some k
        ∧ validate_data VDocBad = .error (.missingField k (.obj [("name", .str "x".toList)])) :=
  ⟨(validate_data_completeness VDocGood [.obj _default_data] rfl (by decide)).1 (by decide),
   (validate_data_completeness VDocBad [.obj [("name", .str "x".toList)]] rfl (by decide)).2
     0 (.obj [("name", .str "x".toList)]) rfl (by decide)
     (fun j _ hj _ => absurd hj (Nat.not_lt_zero j))⟩

theorem clean_classes_idempotent_witness :
    clean_classes SDocClean ["Cleric".toList, "Wizard".toList] false = .ok SDocClean :=
  clean_classes_idempotent SDoc ["Cleric".toList, "Wizard".toList] SDocClean rfl

theorem patch_missing_fields_idempotent_witness :
    patch_missing_fields PDocPatched = .ok PDocPatched :=
  patch_missing_fields_idempotent PDoc PDocPatched rfl

theorem operations_frame_conditions_witness :
    VDocGood = VDocGood
    ∧ PatchFrame PDoc PDocPatched
    ∧ CleanFrame SDoc SDocClean :=
  ⟨operations_frame_conditions.1 VDocGood VDocGood rfl,
   operations_frame_conditions.2.1 PDoc PDocPatched rfl,
   operations_frame_conditions.2.2 SDoc ["Cleric".toList, "Wizard".toList] false SDocClean rfl⟩

theorem clean_classes_empty_parts_dropped_witness :
    ∃ items', docItems WDocClean = some items'
      ∧ ∃ ikvs', items'[0]? = some (JVal.obj ikvs')
          ∧ getVal ikvs' "classes" = some (.str []) :=
  clean_classes_empty_parts_dropped WDoc ["Wizard".toList] false WDocClean rfl
    [.obj [("classes", .str "  , ".toList)]] rfl 0 [("classes", .str "  , ".toList)] rfl
    ("  , ".toList) rfl (by decide) (by decide)
